import Mathlib

/-!
Verification of the `sat-solver` repository: a shallow embedding of the
expression algebra (`src/expression/expression.rs`), the normal-form
transformer (`src/expression/normal.rs`) and the DPLL engine
(`src/solver/dpll.rs`, `src/solver/instance.rs`), together with theorems
about the claims of the specification.

Modelling conventions:
* `u16` variable identifiers become `Nat` (identifiers stay small; the one
  place a bound matters, `VariableId::try_from` in `solve_dpll`, carries an
  explicit `65535` check).
* `HashMap<VariableId, bool>` becomes an association list with
  insert-replace / first-match-lookup semantics; `HashSet` becomes a
  duplicate-free list (hash iteration order is unspecified in Rust, so a
  deterministic order is a faithful instantiation).
* The two general-recursive rewriters (`recursive_demorgan`'s rewrite loop
  and `distribute_and_over_or`) are embedded as fuel-indexed step functions
  (`rdF`, `dF`) that mirror the Rust control flow exactly; the top-level
  functions run them with fuel given by the structural measures `nu` / `mes`
  that justify termination, and the fuel is proved sufficient.
* The DPLL recursion is fuel-indexed (`solveRecF`); Rust's recursion is
  unbounded, so properties of the engine are stated for every fuel value,
  which covers every terminating execution.
* `rand::thread_rng()` is modelled by an explicit stream `rng : Nat → Nat`
  of draws together with a running index; `gen_range(0..=n)` reads the next
  draw modulo `n + 1`.
-/

namespace SatSolver

/-- `pub type VariableId = u16;` -/
abbrev VariableId := Nat

/-- The expression tree of `expression.rs` (`enum Expression`). -/
inductive Expression where
  | Variable : VariableId → Expression
  | Constant : Bool → Expression
  | And : Expression → Expression → Expression
  | Or : Expression → Expression → Expression
  | Not : Expression → Expression
deriving DecidableEq, Repr

/-- First-match lookup in an association list: the model of
`HashMap::get`. -/
def getV (k : VariableId) : List (VariableId × Bool) → Option Bool
  | [] => none
  | (k', v) :: t => if k' = k then some v else getV k t

/-- `HashMap::insert`: replace the binding if the key is present, otherwise
add a new binding. -/
def insertV (k : VariableId) (v : Bool) (l : List (VariableId × Bool)) :
    List (VariableId × Bool) :=
  if (getV k l).isSome then l.map (fun p => if p.1 = k then (k, v) else p)
  else l ++ [(k, v)]

/-- `HashMap::remove`. -/
def eraseV (k : VariableId) (l : List (VariableId × Bool)) :
    List (VariableId × Bool) :=
  l.filter (fun p => decide (p.1 ≠ k))

/-- `struct Assignment { values: HashMap<VariableId, bool> }`. -/
structure Assignment where
  values : List (VariableId × Bool)
deriving DecidableEq, Repr

/-- `Expression::evaluate`: partial evaluation with constant folding,
translated clause for clause from `expression.rs`. -/
def Expression.evaluate : Expression → Assignment → Expression
  | .Variable var, a =>
      match getV var a.values with
      | some val => .Constant val
      | none => .Variable var
  | .And lhs rhs, a =>
      let value_lhs := lhs.evaluate a
      let value_rhs := rhs.evaluate a
      match value_lhs, value_rhs with
      | .Constant val, _ => if val then value_rhs else .Constant false
      | _, .Constant val => if val then value_lhs else .Constant false
      | _, _ => .And value_lhs value_rhs
  | .Or lhs rhs, a =>
      let value_lhs := lhs.evaluate a
      let value_rhs := rhs.evaluate a
      match value_lhs, value_rhs with
      | .Constant val, _ => if val then .Constant true else value_rhs
      | _, .Constant val => if val then .Constant true else value_lhs
      | _, _ => .Or value_lhs value_rhs
  | .Constant b, _ => .Constant b
  | .Not expr, a =>
      let value := expr.evaluate a
      match value with
      | .Constant val => .Constant (!val)
      | _ => .Not value

/-- `struct Literal { var_id, value }` from `normal.rs`. -/
structure Literal where
  var_id : VariableId
  value : Bool
deriving DecidableEq, Repr

/-- `Literal::not`. -/
def Literal.not (l : Literal) : Literal := ⟨l.var_id, !l.value⟩

/-- `struct Clause { literals: Vec<Literal> }`. -/
structure Clause where
  literals : List Literal
deriving DecidableEq, Repr

/-- `struct CNF { clauses: Vec<Clause> }`. -/
structure CNF where
  clauses : List Clause
deriving DecidableEq, Repr

/-- `From<Literal> for Expression`. -/
def Literal.toExpression (l : Literal) : Expression :=
  if l.value then .Variable l.var_id
  else .Not (.Variable l.var_id)

/-- `From<CNF> for Expression`: fold each clause into an `Or` chain seeded
with `false`, then fold the clauses into an `And` chain seeded with
`true`. -/
def CNF.toExpression (c : CNF) : Expression :=
  (c.clauses.map (fun cl =>
      cl.literals.foldl (fun acc l => .Or acc l.toExpression) (.Constant false))).foldl
    (fun acc e => .And acc e) (.Constant true)

/-- Structural measure justifying termination of the De Morgan pushdown:
a `Not` doubles the weight of its child, so every rewrite of
`recursive_demorgan` strictly decreases it. -/
def nu : Expression → Nat
  | .Variable _ => 1
  | .Constant _ => 1
  | .And l r => nu l + nu r + 1
  | .Or l r => nu l + nu r + 1
  | .Not e => 2 * nu e

/-- Structural measure justifying termination of `distribute_and_over_or`:
`And` multiplies the weights of its children (each weight is at least 2),
so both distribution rewrites strictly decrease it. -/
def mes : Expression → Nat
  | .Variable _ => 2
  | .Constant _ => 2
  | .And l r => mes l * mes r
  | .Or l r => mes l + mes r + 1
  | .Not e => mes e + 1

/-- Fuel-indexed `Expression::recursive_demorgan`.  The Rust function runs a
`while modified` loop around one match; only the `Not(And _)` / `Not(Or _)`
arms set `modified`, and when they do the next loop iteration lands in the
`Or` / `And` arm, which normalises both freshly built `Not` children and
clears `modified`.  Unrolling the loop gives exactly the recursion below;
`none` means the fuel ran out (proved impossible for fuel `nu e`). -/
def rdF : Nat → Expression → Option Expression
  | 0, _ => none
  | f + 1, e =>
      match e with
      | .Variable v => some (.Variable v)
      | .Constant b => some (.Constant b)
      | .And l r =>
          (rdF f l).bind fun l' => (rdF f r).map fun r' => .And l' r'
      | .Or l r =>
          (rdF f l).bind fun l' => (rdF f r).map fun r' => .Or l' r'
      | .Not (.And l r) =>
          (rdF f l).bind fun l' => (rdF f r).bind fun r' =>
            (rdF f (.Not l')).bind fun x => (rdF f (.Not r')).map fun y => .Or x y
      | .Not (.Or l r) =>
          (rdF f l).bind fun l' => (rdF f r).bind fun r' =>
            (rdF f (.Not l')).bind fun x => (rdF f (.Not r')).map fun y => .And x y
      | .Not (.Not i) => rdF f i
      | .Not (.Variable v) => some (.Not (.Variable v))
      | .Not (.Constant b) => some (.Not (.Constant b))

/-- `Expression::recursive_demorgan`, run with the sufficient fuel `nu e`. -/
def Expression.recursive_demorgan (e : Expression) : Expression :=
  (rdF (nu e) e).getD e

/-- Fuel-indexed `Expression::distribute_and_over_or`; the match arms are in
the Rust order (right `Or` child first, then left `Or` child). -/
def dF : Nat → Expression → Option Expression
  | 0, _ => none
  | f + 1, e =>
      match e with
      | .And l (.Or il ir) => dF f (.Or (.And l il) (.And l ir))
      | .And (.Or il ir) r => dF f (.Or (.And il r) (.And ir r))
      | .And l r =>
          (dF f l).bind fun l' => (dF f r).map fun r' => .And l' r'
      | .Or l r =>
          (dF f l).bind fun l' => (dF f r).map fun r' => .Or l' r'
      | .Not e' => (dF f e').map fun x => .Not x
      | .Variable v => some (.Variable v)
      | .Constant b => some (.Constant b)

/-- `Expression::distribute_and_over_or`, run with the sufficient fuel
`mes e`. -/
def Expression.distribute_and_over_or (e : Expression) : Expression :=
  (dF (mes e) e).getD e

/-- `Expression::to_dnf_expr`: fold constants, push `Not` inward, then
distribute. -/
def Expression.to_dnf_expr (e : Expression) : Expression :=
  ((e.evaluate ⟨[]⟩).recursive_demorgan).distribute_and_over_or

/-- `Expression::to_cnf_expr`: negate, convert to DNF, negate again and push
`Not` back inward. -/
def Expression.to_cnf_expr (e : Expression) : Expression :=
  (Expression.Not ((Expression.Not e).to_dnf_expr)).recursive_demorgan

/-- The `to_dnf_expr` pipeline with its fuel spelled out: fold constants,
then run the De Morgan loop with fuel `nu` and distribution with fuel
`mes`. -/
def toDnfF (e : Expression) : Option Expression :=
  ((rdF (nu (e.evaluate ⟨[]⟩)) (e.evaluate ⟨[]⟩)).bind fun n => dF (mes n) n)

/-- The `to_cnf_expr` pipeline with its fuel spelled out. -/
def toCnfF (e : Expression) : Option Expression :=
  (toDnfF (.Not e)).bind fun d => rdF (nu (.Not d)) (.Not d)

/-- `HashSet::insert` on the duplicate-free list model. -/
def listInsert (acc : List Literal) (x : Literal) : List Literal :=
  if x ∈ acc then acc else acc ++ [x]

/-- `HashSet::extend`. -/
def listUnion (acc : List Literal) (xs : List Literal) : List Literal :=
  xs.foldl listInsert acc

/-- `Expression::collect_literals`: variables give positive literals,
`Not(Variable _)` gives a negative literal, constants give nothing, any
other `Not` child is recursed into unchanged. -/
def Expression.collect_literals : Expression → List Literal
  | .Variable v => [⟨v, true⟩]
  | .Constant _ => []
  | .And lhs rhs => listUnion lhs.collect_literals rhs.collect_literals
  | .Or lhs rhs => listUnion lhs.collect_literals rhs.collect_literals
  | .Not (.Variable v) => [⟨v, false⟩]
  | .Not e => e.collect_literals

/-- The clause-extraction worklist of `From<Expression> for CNF`: pop the
top, split `And` nodes (the right child, pushed last, is processed first),
and turn any other node into a clause via `collect_literals`.  The stack
discipline is exactly a right-first depth-first walk, written here as the
equivalent structural recursion. -/
def clausesOf : Expression → List Clause
  | .And l r => clausesOf r ++ clausesOf l
  | e => [⟨e.collect_literals⟩]

/-- `From<Expression> for CNF`. -/
def CNF.fromExpression (e : Expression) : CNF :=
  ⟨clausesOf e.to_cnf_expr⟩

/-- The variables occurring in an expression. -/
def Expression.vars : Expression → List VariableId
  | .Variable v => [v]
  | .Constant _ => []
  | .And l r => l.vars ++ r.vars
  | .Or l r => l.vars ++ r.vars
  | .Not e => e.vars

/-- Naive truth-table semantics of an expression under a total valuation. -/
def Expression.sem : Expression → (VariableId → Bool) → Bool
  | .Variable v, f => f v
  | .Constant b, _ => b
  | .And l r, f => l.sem f && r.sem f
  | .Or l r, f => l.sem f || r.sem f
  | .Not e, f => !e.sem f

/-! ### The DPLL engine (`src/solver/dpll.rs`, `src/solver/instance.rs`) -/

/-- `enum DpllSolverResult`. -/
inductive DpllSolverResult where
  | Sat : DpllSolverResult
  | Unsat : DpllSolverResult
deriving DecidableEq, Repr

/-- `struct DpllClause { literals, is_disabled }`. -/
structure DpllClause where
  literals : List Literal
  is_disabled : Bool
deriving DecidableEq, Repr

/-- `struct DpllCNF { clauses }`. -/
structure DpllCNF where
  clauses : List DpllClause
deriving DecidableEq, Repr

/-- `From<CNF> for DpllCNF` (via `From<Clause> for DpllClause`): every
clause starts enabled. -/
def DpllCNF.fromCNF (c : CNF) : DpllCNF :=
  ⟨c.clauses.map fun cl => ⟨cl.literals, false⟩⟩

/-- `DpllClause::literal_count`: the number of literals whose variable is
unassigned. -/
def DpllClause.literal_count (c : DpllClause) (a : Assignment) : Nat :=
  (c.literals.filter fun l => (getV l.var_id a.values).isNone).length

/-- `DpllCNF::has_no_clauses`: no clause is enabled. -/
def DpllCNF.has_no_clauses (cnf : DpllCNF) : Bool :=
  (cnf.clauses.filter fun c => !c.is_disabled).length = 0

/-- `DpllCNF::has_empty_clause`: some enabled clause has no unassigned
literal. -/
def DpllCNF.has_empty_clause (cnf : DpllCNF) (a : Assignment) : Bool :=
  (cnf.clauses.filter fun c => !c.is_disabled).any fun c =>
    c.literal_count a = 0

/-- The per-clause body of `DpllCNF::disable`. -/
def dstep (literal : Literal) (c : DpllClause) : DpllClause :=
  if !c.is_disabled && literal ∈ c.literals then ⟨c.literals, true⟩ else c

/-- `DpllCNF::disable`: disable every enabled clause containing the
literal. -/
def DpllCNF.disable (literal : Literal) (cnf : DpllCNF) : DpllCNF :=
  ⟨cnf.clauses.map (dstep literal)⟩

/-- Whether some literal of the clause is satisfied by the assignment: the
inner check of `DpllCNF::enable`. -/
def DpllClause.has_satisfied_literal (c : DpllClause) (a : Assignment) : Bool :=
  c.literals.any fun cl => getV cl.var_id a.values == some cl.value

/-- The per-clause body of `DpllCNF::enable`. -/
def estep (literal : Literal) (a : Assignment) (c : DpllClause) : DpllClause :=
  if c.is_disabled && literal ∈ c.literals && !c.has_satisfied_literal a
  then ⟨c.literals, false⟩ else c

/-- `DpllCNF::enable`: re-enable every disabled clause containing the
literal, unless some literal of the clause is satisfied by the current
assignment. -/
def DpllCNF.enable (literal : Literal) (a : Assignment) (cnf : DpllCNF) : DpllCNF :=
  ⟨cnf.clauses.map (estep literal a)⟩

/-- The unit-clause search inside `remove_unit_clauses`: find the first
enabled clause with exactly one unassigned literal and return that
literal. -/
def findUnit (cnf : DpllCNF) (a : Assignment) : Option Literal :=
  match (cnf.clauses.filter fun c => !c.is_disabled).find?
      (fun c => c.literal_count a == 1) with
  | none => none
  | some c => c.literals.find? fun l => (getV l.var_id a.values).isNone

/-- The `while keep_going` loop of `remove_unit_clauses`, fuel-indexed.
Each iteration assigns a previously unassigned variable of the CNF, so the
loop runs at most once per literal occurrence; the wrapper passes enough
fuel. -/
def removeUnitsGo : Nat → DpllCNF → Assignment → List Literal →
    DpllCNF × Assignment × List Literal
  | 0, cnf, a, trail => (cnf, a, trail)
  | f + 1, cnf, a, trail =>
      match findUnit cnf a with
      | none => (cnf, a, trail)
      | some l =>
          removeUnitsGo f (cnf.disable l) ⟨insertV l.var_id l.value a.values⟩
            (trail ++ [l])

/-- Total number of literal occurrences in the CNF: an upper bound on the
number of unit-propagation steps. -/
def DpllCNF.totalLiterals (cnf : DpllCNF) : Nat :=
  (cnf.clauses.map fun c => c.literals.length).sum

/-- `remove_unit_clauses`. -/
def remove_unit_clauses (cnf : DpllCNF) (a : Assignment) (trail : List Literal) :
    DpllCNF × Assignment × List Literal :=
  removeUnitsGo (cnf.totalLiterals + 1) cnf a trail

/-- The unassigned literals of the enabled clauses, in scan order: the
iteration space of the pure-literal scan. -/
def enabledUnassignedLits (cnf : DpllCNF) (a : Assignment) : List Literal :=
  ((cnf.clauses.filter fun c => !c.is_disabled).map fun c =>
    c.literals.filter fun l => (getV l.var_id a.values).isNone).flatten

/-- One step of the pure-literal scan: seeing the negation of a candidate
pure literal retires both polarities to the impure set. -/
def pureScanStep (p : List Literal × List Literal) (l : Literal) :
    List Literal × List Literal :=
  if l.not ∈ p.1 then
    (p.1.filter (fun x => decide (x ≠ l.not)),
     listInsert (listInsert p.2 l) l.not)
  else if l ∈ p.2 then p
  else (listInsert p.1 l, p.2)

/-- `eliminate_pure_literals`: scan for pure literals, then assign each one
its satisfying value, record it on the trail and disable the clauses it
satisfies. -/
def eliminate_pure_literals (cnf : DpllCNF) (a : Assignment) (trail : List Literal) :
    DpllCNF × Assignment × List Literal :=
  let pures := ((enabledUnassignedLits cnf a).foldl pureScanStep ([], [])).1
  pures.foldl
    (fun st pl =>
      (st.1.disable pl, ⟨insertV pl.var_id pl.value st.2.1.values⟩, st.2.2 ++ [pl]))
    (cnf, a, trail)

/-- The FIFO trail undo performed on the `Unsat` paths of
`solve_dpll_recursive`: remove each trail literal from the assignment, then
call `enable` with the shrunken assignment. -/
def undoTrail (cnf : DpllCNF) (a : Assignment) (trail : List Literal) :
    DpllCNF × Assignment :=
  trail.foldl
    (fun st l =>
      let a' : Assignment := ⟨eraseV l.var_id st.2.values⟩
      (st.1.enable l a', a'))
    (cnf, a)

/-- The retry loop of `choose_variable`'s random branch: draw
`gen_range(0..=max_id)` from the stream until the drawn variable is
unassigned.  The Rust loop is unbounded; fuel bounds the number of draws
modelled. -/
def chooseScan : Nat → Nat → (Nat → Nat) → Nat → Assignment →
    Option (VariableId × Nat)
  | 0, _, _, _, _ => none
  | f + 1, maxId, rng, ridx, a =>
      let v := rng ridx % (maxId + 1)
      if (getV v a.values).isNone then some (v, ridx + 1)
      else chooseScan f maxId rng (ridx + 1) a

/-- `choose_variable`: below the half-assigned threshold, rejection-sample
from the stream; otherwise enumerate the unassigned identifiers and index
into them with one draw. -/
def choose_variable (scanFuel : Nat) (maxId : VariableId) (a : Assignment)
    (rng : Nat → Nat) (ridx : Nat) : Option (VariableId × Nat) :=
  if a.values.length < maxId / 2 then
    chooseScan scanFuel maxId rng ridx a
  else
    let available := (List.range (maxId + 1)).filter fun v =>
      (getV v a.values).isNone
    match available with
    | [] => none
    | _ => some (available.getD (rng ridx % available.length) 0, ridx + 1)

/-- `solve_dpll_recursive`, fuel-indexed: unit propagation, pure-literal
elimination, the two termination checks, then branching on a decision
variable, undoing each branch and finally the per-call trail exactly as in
the Rust source.  The state (clause flags and assignment) is threaded
explicitly; `none` models fuel exhaustion or an `expect` panic. -/
def solveRecF : Nat → DpllCNF → Assignment → VariableId → (Nat → Nat) → Nat →
    Option (DpllSolverResult × DpllCNF × Assignment × Nat)
  | 0, _, _, _, _, _ => none
  | f + 1, cnf, a, maxId, rng, ridx =>
      let s1 := remove_unit_clauses cnf a []
      let s2 := eliminate_pure_literals s1.1 s1.2.1 s1.2.2
      let cnf2 := s2.1
      let a2 := s2.2.1
      let trail := s2.2.2
      if cnf2.has_no_clauses then some (.Sat, cnf2, a2, ridx)
      else if cnf2.has_empty_clause a2 then
        let u := undoTrail cnf2 a2 trail
        some (.Unsat, u.1, u.2, ridx)
      else
        match choose_variable (f + 1) maxId a2 rng ridx with
        | none => none
        | some (var_id, ridx1) =>
            let a3 : Assignment := ⟨insertV var_id true a2.values⟩
            let cnf3 := cnf2.disable ⟨var_id, true⟩
            match solveRecF f cnf3 a3 maxId rng ridx1 with
            | none => none
            | some (.Sat, c', a', r') => some (.Sat, c', a', r')
            | some (.Unsat, c', a', r') =>
                let a4 : Assignment := ⟨eraseV var_id a'.values⟩
                let c4 := c'.enable ⟨var_id, true⟩ a4
                let a5 : Assignment := ⟨insertV var_id false a4.values⟩
                let c5 := c4.disable ⟨var_id, false⟩
                match solveRecF f c5 a5 maxId rng r' with
                | none => none
                | some (.Sat, c'', a'', r'') => some (.Sat, c'', a'', r'')
                | some (.Unsat, c'', a'', r'') =>
                    let a6 : Assignment := ⟨eraseV var_id a''.values⟩
                    let c6 := c''.enable ⟨var_id, false⟩ a6
                    let u := undoTrail c6 a6 trail
                    some (.Unsat, u.1, u.2, r'')

/-- `struct SATInstance` from `instance.rs`. -/
structure SATInstance where
  expression : Expression
  var_to_str : List (VariableId × String)
  str_to_var : List (String × VariableId)
deriving Repr

/-- `enum SolverResult`. -/
inductive SolverResult where
  | Sat : Option Assignment → SolverResult
  | Unsat : SolverResult
deriving DecidableEq, Repr

/-- `solve_dpll`: compute `max_id` from the interning table (panicking —
`none` — when the table is empty or the id does not fit in a `u16`), build
the search CNF, disable the clauses satisfied by the initial assignment and
run the recursive engine. -/
def solve_dpll (fuel : Nat) (inst : SATInstance) (initial_assignment : Assignment)
    (rng : Nat → Nat) : Option SolverResult :=
  if inst.var_to_str.length = 0 then none
  else if 65535 < inst.var_to_str.length - 1 then none
  else
    let max_id := inst.var_to_str.length - 1
    let cnf0 := DpllCNF.fromCNF (CNF.fromExpression inst.expression)
    let a := initial_assignment
    let cnf := a.values.foldl (fun c p => c.disable ⟨p.1, p.2⟩) cnf0
    match solveRecF fuel cnf a max_id rng 0 with
    | none => none
    | some (.Sat, _, a', _) => some (.Sat (some a'))
    | some (.Unsat, _, _, _) => some .Unsat

/-- The clause-database invariant stated in the spec: no enabled clause has
a literal satisfied by the current assignment. -/
abbrev InvE (cnf : DpllCNF) (a : Assignment) : Prop :=
  ∀ c ∈ cnf.clauses, c.is_disabled = false → c.has_satisfied_literal a = false

/-- The strengthened flag invariant maintained by the search: a clause is
disabled exactly when one of its literals is satisfied by the current
assignment.  It pins the flags down as a function of the assignment, which
is what makes backtracking restore them exactly. -/
abbrev InvIff (cnf : DpllCNF) (a : Assignment) : Prop :=
  ∀ c ∈ cnf.clauses, (c.is_disabled = true ↔ c.has_satisfied_literal a = true)

/-- The literal lists of the clause database, forgetting the flags.
`disable` and `enable` never change them. -/
def litsOf (cnf : DpllCNF) : List (List Literal) :=
  cnf.clauses.map (·.literals)

/-- The assignment entries a trail of literals contributes. -/
def trailPairs (tr : List Literal) : List (VariableId × Bool) :=
  tr.map fun l => (l.var_id, l.value)

/-- A trail is fresh for an assignment when its variables are unassigned
and pairwise distinct: exactly what unit propagation, pure-literal
elimination and decisions guarantee for the literals they add. -/
def FreshTrail (a : Assignment) (tr : List Literal) : Prop :=
  (∀ l ∈ tr, getV l.var_id a.values = none) ∧
  tr.Pairwise fun x y => x.var_id ≠ y.var_id

/-! ### Shape predicates for the normal forms -/

/-- The claimed NNF property: every `Not` node has a bare `Variable` as its
immediate child. -/
def Expression.notsOnVariables : Expression → Bool
  | .Variable _ => true
  | .Constant _ => true
  | .And l r => l.notsOnVariables && r.notsOnVariables
  | .Or l r => l.notsOnVariables && r.notsOnVariables
  | .Not (.Variable _) => true
  | .Not _ => false

/-- The weakened NNF property: every `Not` node has a leaf (`Variable` or
`Constant`) as its immediate child. -/
def Expression.notsOnLeaves : Expression → Bool
  | .Variable _ => true
  | .Constant _ => true
  | .And l r => l.notsOnLeaves && r.notsOnLeaves
  | .Or l r => l.notsOnLeaves && r.notsOnLeaves
  | .Not (.Variable _) => true
  | .Not (.Constant _) => true
  | .Not _ => false

/-- No `Constant` node occurs in the expression. -/
def Expression.constantFree : Expression → Bool
  | .Variable _ => true
  | .Constant _ => false
  | .And l r => l.constantFree && r.constantFree
  | .Or l r => l.constantFree && r.constantFree
  | .Not e => e.constantFree

/-! ### Concrete test inputs -/

/-- `(¬((v0 ∧ (v1 ∨ v2)) ∧ v3)) ∧ ((v0 ∧ v3) ∧ v1)`: an input on which
`distribute_and_over_or` leaves an `Or` below an `And` (the `else` branch
of the `And` arm recurses into children without re-examining the rebuilt
node), so clause extraction flattens a non-clause subtree. -/
def exprMisdistributed : Expression :=
  .And
    (.Not (.And (.And (.Variable 0) (.Or (.Variable 1) (.Variable 2))) (.Variable 3)))
    (.And (.And (.Variable 0) (.Variable 3)) (.Variable 1))

/-- The instance wrapping `exprMisdistributed`. -/
def instMisdistributed : SATInstance :=
  ⟨exprMisdistributed, [(0, "a"), (1, "b"), (2, "c"), (3, "d")],
   [("a", 0), ("b", 1), ("c", 2), ("d", 3)]⟩

/-- `v0 ∨ true`: a tautology that `evaluate(·, ∅)` folds to `Constant true`,
which the CNF pipeline then turns into the empty clause. -/
def exprTautOr : Expression := .Or (.Variable 0) (.Constant true)

/-- The instance wrapping `exprTautOr`. -/
def instTautOr : SATInstance := ⟨exprTautOr, [(0, "v0")], [("v0", 0)]⟩

/-- `(v0 ∨ v1) ∧ (¬v0 ∨ ¬v1)`: forces the engine to make a random decision,
exposing the dependence of the result on the ambient random stream. -/
def exprXor : Expression :=
  .And (.Or (.Variable 0) (.Variable 1))
       (.Or (.Not (.Variable 0)) (.Not (.Variable 1)))

/-- The instance wrapping `exprXor`. -/
def instXor : SATInstance :=
  ⟨exprXor, [(0, "a"), (1, "b")], [("a", 0), ("b", 1)]⟩

/-! ## Theorems about the claims -/

/-- C1: the soundness claim fails on the code.  On `instMisdistributed`
with an empty initial assignment, `solve_dpll` answers `Sat` with the
assignment `{v1 ↦ true, v3 ↦ true, v0 ↦ true, v2 ↦ false}`, yet evaluating
the instance's expression under that assignment yields `Constant false`,
not `Constant true`: the extracted clause `{¬v0, ¬v1, ¬v2, ¬v3}` flattens a
subtree that is not a disjunction of literals. -/
theorem dpll_sat_returns_falsifying_assignment :
    solve_dpll 10 instMisdistributed ⟨[]⟩ (fun _ => 0)
      = some (.Sat (some ⟨[(1, true), (3, true), (0, true), (2, false)]⟩)) ∧
    exprMisdistributed.evaluate ⟨[(1, true), (3, true), (0, true), (2, false)]⟩
      = .Constant false := by
  exact ⟨by decide, by decide⟩

/-- C2: the completeness claim fails on the code.  On `instTautOr` (the
tautology `v0 ∨ true`) with an empty initial assignment, `solve_dpll`
answers `Unsat`, yet the total assignment `{v0 ↦ true}` evaluates the
expression to `Constant true`. -/
theorem dpll_unsat_on_satisfiable_tautology :
    solve_dpll 10 instTautOr ⟨[]⟩ (fun _ => 0) = some .Unsat ∧
    exprTautOr.evaluate ⟨[(0, true)]⟩ = .Constant true := by
  exact ⟨by decide, by decide⟩

/-- C3: the CNF-equivalence claim fails on the code.  `From<Expression> for
CNF` maps `v0 ∨ true` to the single empty clause; reading that CNF back as
an expression (`From<CNF> for Expression`) and evaluating it under the
total assignment `{v0 ↦ true}` gives `Constant false`, while the original
expression evaluates to `Constant true` under the same assignment. -/
theorem cnf_extraction_flips_constant_true :
    CNF.fromExpression exprTautOr = ⟨[⟨[]⟩]⟩ ∧
    (CNF.fromExpression exprTautOr).toExpression.evaluate ⟨[(0, true)]⟩
      = .Constant false ∧
    exprTautOr.evaluate ⟨[(0, true)]⟩ = .Constant true := by
  exact ⟨by decide, by decide, by decide⟩

/-- C7 counterexample: `to_cnf_expr (v0 ∨ true)` is `Not (Constant false)`,
a `Not` node whose immediate child is a constant, not a bare variable. -/
theorem to_cnf_expr_emits_not_over_constant :
    Expression.notsOnVariables exprTautOr.to_cnf_expr = false := by
  decide

/-- C9: the determinism-under-a-seed claim fails on the code.  The solver
takes no seed; `choose_variable` draws from the ambient stream (modelling
`rand::thread_rng()`), and two runs of `solve_dpll` on `instXor` that differ
only in that ambient stream return different `Sat` assignments. -/
theorem solver_result_depends_on_global_rng_stream :
    solve_dpll 10 instXor ⟨[]⟩ (fun _ => 0)
      = some (.Sat (some ⟨[(0, true), (1, false)]⟩)) ∧
    solve_dpll 10 instXor ⟨[]⟩ (fun _ => 1)
      = some (.Sat (some ⟨[(1, true), (0, false)]⟩)) := by
  exact ⟨by decide, by decide⟩

/-- C10: with an empty interning table `solve_dpll` never returns a
verdict (the `max_id` computation panics), and a verdict is returned only
when the instance has at least one interned variable. -/
theorem solve_dpll_requires_interned_variable :
    (∀ fuel e s2v a rng, solve_dpll fuel ⟨e, [], s2v⟩ a rng = none) ∧
    (∀ fuel inst a rng r, solve_dpll fuel inst a rng = some r →
      inst.var_to_str ≠ []) := by
  constructor
  · intro fuel e s2v a rng
    simp [solve_dpll]
  · intro fuel inst a rng r h hnil
    rw [solve_dpll] at h
    rw [hnil] at h
    simp at h

/-- C10 witness: on a one-variable instance the solver does return a
verdict, and the theorem then certifies that its interning table is
nonempty. -/
theorem solve_dpll_requires_interned_variable_witness :
    instTautOr.var_to_str ≠ [] :=
  solve_dpll_requires_interned_variable.2 10 instTautOr ⟨[]⟩ (fun _ => 0)
    .Unsat (by decide)

/-- C6: on an assignment that is total over the expression, `evaluate`
reduces to a single `Constant` whose value is the naive truth-table
semantics of the expression. -/
theorem evaluate_total_is_truth_table (e : Expression) (a : Assignment)
    (h : ∀ v ∈ e.vars, (getV v a.values).isSome) :
    e.evaluate a = .Constant (e.sem fun v => (getV v a.values).getD false) := by
  induction e with
  | Variable v =>
      have hv := h v (by simp [Expression.vars])
      rcases hg : getV v a.values with _ | b
      · rw [hg] at hv
        simp at hv
      · simp [Expression.evaluate, Expression.sem, hg]
  | Constant b => rfl
  | And l r ihl ihr =>
      simp only [Expression.vars, List.mem_append] at h
      have hl := ihl fun v hv => h v (Or.inl hv)
      have hr := ihr fun v hv => h v (Or.inr hv)
      simp only [Expression.evaluate, hl, hr, Expression.sem]
      cases l.sem fun v => (getV v a.values).getD false <;> simp
  | Or l r ihl ihr =>
      simp only [Expression.vars, List.mem_append] at h
      have hl := ihl fun v hv => h v (Or.inl hv)
      have hr := ihr fun v hv => h v (Or.inr hv)
      simp only [Expression.evaluate, hl, hr, Expression.sem]
      cases l.sem fun v => (getV v a.values).getD false <;> simp
  | Not e ih =>
      simp only [Expression.vars] at h
      have he := ih h
      simp [Expression.evaluate, he, Expression.sem]

/-! ### Termination and shape of the rewriters -/

theorem nu_pos (e : Expression) : 1 ≤ nu e := by
  induction e with
  | Variable v => simp [nu]
  | Constant b => simp [nu]
  | And l r ihl ihr => simp only [nu]; omega
  | Or l r ihl ihr => simp only [nu]; omega
  | Not e ih => simp only [nu]; omega

theorem mes_two_le (e : Expression) : 2 ≤ mes e := by
  induction e with
  | Variable v => simp [mes]
  | Constant b => simp [mes]
  | And l r ihl ihr => simp only [mes]; nlinarith
  | Or l r ihl ihr => simp only [mes]; omega
  | Not e ih => simp only [mes]; omega

theorem rdF_eq_var (f : Nat) (v : VariableId) :
    rdF (f + 1) (.Variable v) = some (.Variable v) := rfl

theorem rdF_eq_const (f : Nat) (b : Bool) :
    rdF (f + 1) (.Constant b) = some (.Constant b) := rfl

theorem rdF_eq_and (f : Nat) (l r : Expression) :
    rdF (f + 1) (.And l r)
      = (rdF f l).bind fun l' => (rdF f r).map fun r' => .And l' r' := rfl

theorem rdF_eq_or (f : Nat) (l r : Expression) :
    rdF (f + 1) (.Or l r)
      = (rdF f l).bind fun l' => (rdF f r).map fun r' => .Or l' r' := rfl

theorem rdF_eq_nand (f : Nat) (l r : Expression) :
    rdF (f + 1) (.Not (.And l r))
      = ((rdF f l).bind fun l' => (rdF f r).bind fun r' =>
          (rdF f (.Not l')).bind fun x => (rdF f (.Not r')).map fun y => .Or x y) := rfl

theorem rdF_eq_nor (f : Nat) (l r : Expression) :
    rdF (f + 1) (.Not (.Or l r))
      = ((rdF f l).bind fun l' => (rdF f r).bind fun r' =>
          (rdF f (.Not l')).bind fun x => (rdF f (.Not r')).map fun y => .And x y) := rfl

theorem rdF_eq_nnot (f : Nat) (i : Expression) :
    rdF (f + 1) (.Not (.Not i)) = rdF f i := rfl

theorem rdF_eq_nvar (f : Nat) (v : VariableId) :
    rdF (f + 1) (.Not (.Variable v)) = some (.Not (.Variable v)) := rfl

theorem rdF_eq_nconst (f : Nat) (b : Bool) :
    rdF (f + 1) (.Not (.Constant b)) = some (.Not (.Constant b)) := rfl

/-- The De Morgan step never increases the measure `nu`. -/
theorem rdF_nu_le : ∀ f e x, rdF f e = some x → nu x ≤ nu e := by
  intro f
  induction f with
  | zero => intro e x h; simp [rdF] at h
  | succ f ih =>
      intro e x h
      cases e with
      | Variable v =>
          rw [rdF_eq_var, Option.some.injEq] at h
          subst h; exact le_refl _
      | Constant b =>
          rw [rdF_eq_const, Option.some.injEq] at h
          subst h; exact le_refl _
      | And l r =>
          rw [rdF_eq_and] at h
          rcases Option.bind_eq_some.mp h with ⟨l', hl, h2⟩
          rcases Option.map_eq_some'.mp h2 with ⟨r', hr, hx⟩
          subst hx
          have h1 := ih l l' hl
          have h2 := ih r r' hr
          simp only [nu]; omega
      | Or l r =>
          rw [rdF_eq_or] at h
          rcases Option.bind_eq_some.mp h with ⟨l', hl, h2⟩
          rcases Option.map_eq_some'.mp h2 with ⟨r', hr, hx⟩
          subst hx
          have h1 := ih l l' hl
          have h2 := ih r r' hr
          simp only [nu]; omega
      | Not e' =>
          cases e' with
          | Variable v =>
              rw [rdF_eq_nvar, Option.some.injEq] at h
              subst h; exact le_refl _
          | Constant b =>
              rw [rdF_eq_nconst, Option.some.injEq] at h
              subst h; exact le_refl _
          | And l r =>
              rw [rdF_eq_nand] at h
              rcases Option.bind_eq_some.mp h with ⟨l', hl, h2⟩
              rcases Option.bind_eq_some.mp h2 with ⟨r', hr, h3⟩
              rcases Option.bind_eq_some.mp h3 with ⟨x1, hx1, h4⟩
              rcases Option.map_eq_some'.mp h4 with ⟨y1, hy1, hx⟩
              subst hx
              have b1 := ih l l' hl
              have b2 := ih r r' hr
              have b3 := ih (.Not l') x1 hx1
              have b4 := ih (.Not r') y1 hy1
              simp only [nu] at *; omega
          | Or l r =>
              rw [rdF_eq_nor] at h
              rcases Option.bind_eq_some.mp h with ⟨l', hl, h2⟩
              rcases Option.bind_eq_some.mp h2 with ⟨r', hr, h3⟩
              rcases Option.bind_eq_some.mp h3 with ⟨x1, hx1, h4⟩
              rcases Option.map_eq_some'.mp h4 with ⟨y1, hy1, hx⟩
              subst hx
              have b1 := ih l l' hl
              have b2 := ih r r' hr
              have b3 := ih (.Not l') x1 hx1
              have b4 := ih (.Not r') y1 hy1
              simp only [nu] at *; omega
          | Not i =>
              rw [rdF_eq_nnot] at h
              have b := ih i x h
              have := nu_pos i
              simp only [nu]; omega

/-- Adding fuel does not change a successful run of the De Morgan loop. -/
theorem rdF_mono : ∀ f e x, rdF f e = some x → rdF (f + 1) e = some x := by
  intro f
  induction f with
  | zero => intro e x h; simp [rdF] at h
  | succ f ih =>
      intro e x h
      cases e with
      | Variable v => exact h
      | Constant b => exact h
      | And l r =>
          rw [rdF_eq_and] at h
          rw [rdF_eq_and]
          rcases Option.bind_eq_some.mp h with ⟨l', hl, h2⟩
          rcases Option.map_eq_some'.mp h2 with ⟨r', hr, hx⟩
          rw [ih l l' hl, ih r r' hr]
          simp [hx]
      | Or l r =>
          rw [rdF_eq_or] at h
          rw [rdF_eq_or]
          rcases Option.bind_eq_some.mp h with ⟨l', hl, h2⟩
          rcases Option.map_eq_some'.mp h2 with ⟨r', hr, hx⟩
          rw [ih l l' hl, ih r r' hr]
          simp [hx]
      | Not e' =>
          cases e' with
          | Variable v => exact h
          | Constant b => exact h
          | And l r =>
              rw [rdF_eq_nand] at h
              rw [rdF_eq_nand]
              rcases Option.bind_eq_some.mp h with ⟨l', hl, h2⟩
              rcases Option.bind_eq_some.mp h2 with ⟨r', hr, h3⟩
              rcases Option.bind_eq_some.mp h3 with ⟨x1, hx1, h4⟩
              rcases Option.map_eq_some'.mp h4 with ⟨y1, hy1, hx⟩
              rw [ih l l' hl, ih r r' hr]
              simp only [Option.some_bind]
              rw [ih (.Not l') x1 hx1, ih (.Not r') y1 hy1]
              simp [hx]
          | Or l r =>
              rw [rdF_eq_nor] at h
              rw [rdF_eq_nor]
              rcases Option.bind_eq_some.mp h with ⟨l', hl, h2⟩
              rcases Option.bind_eq_some.mp h2 with ⟨r', hr, h3⟩
              rcases Option.bind_eq_some.mp h3 with ⟨x1, hx1, h4⟩
              rcases Option.map_eq_some'.mp h4 with ⟨y1, hy1, hx⟩
              rw [ih l l' hl, ih r r' hr]
              simp only [Option.some_bind]
              rw [ih (.Not l') x1 hx1, ih (.Not r') y1 hy1]
              simp [hx]
          | Not i =>
              rw [rdF_eq_nnot] at h
              rw [rdF_eq_nnot]
              exact ih i x h

theorem rdF_mono_le {f g : Nat} (hfg : f ≤ g) {e x : Expression}
    (h : rdF f e = some x) : rdF g e = some x := by
  induction g with
  | zero =>
      have : f = 0 := Nat.le_zero.mp hfg
      subst this; exact h
  | succ g ih =>
      rcases Nat.lt_or_ge f (g + 1) with hlt | hge
      · exact rdF_mono g e x (ih (Nat.lt_succ_iff.mp hlt))
      · have : f = g + 1 := le_antisymm hfg hge
        subst this; exact h

/-- Fuel `nu e` suffices for the De Morgan loop: the rewrite terminates
with the structural measure `nu`. -/
theorem rdF_sufficient : ∀ f e, nu e ≤ f → ∃ x, rdF f e = some x := by
  intro f
  induction f with
  | zero =>
      intro e h
      have := nu_pos e
      omega
  | succ f ih =>
      intro e h
      cases e with
      | Variable v => exact ⟨_, rfl⟩
      | Constant b => exact ⟨_, rfl⟩
      | And l r =>
          have hl := nu_pos l
          have hr := nu_pos r
          simp only [nu] at h
          obtain ⟨l', hl'⟩ := ih l (by omega)
          obtain ⟨r', hr'⟩ := ih r (by omega)
          refine ⟨.And l' r', ?_⟩
          rw [rdF_eq_and, hl', hr']
          rfl
      | Or l r =>
          have hl := nu_pos l
          have hr := nu_pos r
          simp only [nu] at h
          obtain ⟨l', hl'⟩ := ih l (by omega)
          obtain ⟨r', hr'⟩ := ih r (by omega)
          refine ⟨.Or l' r', ?_⟩
          rw [rdF_eq_or, hl', hr']
          rfl
      | Not e' =>
          cases e' with
          | Variable v => exact ⟨_, rfl⟩
          | Constant b => exact ⟨_, rfl⟩
          | And l r =>
              have hl := nu_pos l
              have hr := nu_pos r
              simp only [nu] at h
              obtain ⟨l', hl'⟩ := ih l (by omega)
              obtain ⟨r', hr'⟩ := ih r (by omega)
              have bl := rdF_nu_le f l l' hl'
              have br := rdF_nu_le f r r' hr'
              obtain ⟨x1, hx1⟩ := ih (.Not l') (by simp only [nu]; omega)
              obtain ⟨y1, hy1⟩ := ih (.Not r') (by simp only [nu]; omega)
              refine ⟨.Or x1 y1, ?_⟩
              rw [rdF_eq_nand, hl']
              simp only [Option.some_bind]
              rw [hr']
              simp only [Option.some_bind]
              rw [hx1]
              simp only [Option.some_bind]
              rw [hy1]
              rfl
          | Or l r =>
              have hl := nu_pos l
              have hr := nu_pos r
              simp only [nu] at h
              obtain ⟨l', hl'⟩ := ih l (by omega)
              obtain ⟨r', hr'⟩ := ih r (by omega)
              have bl := rdF_nu_le f l l' hl'
              have br := rdF_nu_le f r r' hr'
              obtain ⟨x1, hx1⟩ := ih (.Not l') (by simp only [nu]; omega)
              obtain ⟨y1, hy1⟩ := ih (.Not r') (by simp only [nu]; omega)
              refine ⟨.And x1 y1, ?_⟩
              rw [rdF_eq_nor, hl']
              simp only [Option.some_bind]
              rw [hr']
              simp only [Option.some_bind]
              rw [hx1]
              simp only [Option.some_bind]
              rw [hy1]
              rfl
          | Not i =>
              have hi := nu_pos i
              simp only [nu] at h
              obtain ⟨x, hx⟩ := ih i (by omega)
              refine ⟨x, ?_⟩
              rw [rdF_eq_nnot]
              exact hx

/-- A successful run of the fuel-indexed loop computes
`recursive_demorgan`. -/
theorem recursive_demorgan_eq_of_rdF {f : Nat} {e x : Expression}
    (h : rdF f e = some x) : e.recursive_demorgan = x := by
  obtain ⟨y, hy⟩ := rdF_sufficient (nu e) e (le_refl _)
  have h1 := rdF_mono_le (Nat.le_max_left f (nu e)) h
  have h2 := rdF_mono_le (Nat.le_max_right f (nu e)) hy
  rw [h1] at h2
  have hxy : x = y := Option.some.inj h2
  simp [Expression.recursive_demorgan, hy, hxy]

/-- Shorthand: the expression is not an `Or` node, i.e. the corresponding
`if let Expression::Or(..)` test in `distribute_and_over_or` fails. -/
def notOrP (e : Expression) : Prop := ∀ a b, e ≠ .Or a b

theorem dF_eq_var (f : Nat) (v : VariableId) :
    dF (f + 1) (.Variable v) = some (.Variable v) := rfl

theorem dF_eq_const (f : Nat) (b : Bool) :
    dF (f + 1) (.Constant b) = some (.Constant b) := rfl

theorem dF_eq_or (f : Nat) (l r : Expression) :
    dF (f + 1) (.Or l r)
      = (dF f l).bind fun l' => (dF f r).map fun r' => .Or l' r' := rfl

theorem dF_eq_not (f : Nat) (e : Expression) :
    dF (f + 1) (.Not e) = (dF f e).map fun x => .Not x := rfl

theorem dF_eq_and_orr (f : Nat) (l il ir : Expression) :
    dF (f + 1) (.And l (.Or il ir)) = dF f (.Or (.And l il) (.And l ir)) := by
  cases l <;> rfl

theorem dF_eq_and_orl (f : Nat) (il ir r : Expression) (hr : notOrP r) :
    dF (f + 1) (.And (.Or il ir) r) = dF f (.Or (.And il r) (.And ir r)) := by
  cases r <;> first | rfl | exact absurd rfl (hr _ _)

theorem dF_eq_and_plain (f : Nat) (l r : Expression) (hl : notOrP l)
    (hr : notOrP r) :
    dF (f + 1) (.And l r)
      = (dF f l).bind fun l' => (dF f r).map fun r' => .And l' r' := by
  cases l <;> cases r <;>
    first | rfl | exact absurd rfl (hl _ _) | exact absurd rfl (hr _ _)

/-- Adding fuel does not change a successful run of the distribution
rewrite. -/
theorem dF_mono : ∀ f e x, dF f e = some x → dF (f + 1) e = some x := by
  intro f
  induction f with
  | zero => intro e x h; simp [dF] at h
  | succ f ih =>
      intro e x h
      cases e with
      | Variable v => exact h
      | Constant b => exact h
      | Or l r =>
          rw [dF_eq_or] at h
          rw [dF_eq_or]
          rcases Option.bind_eq_some.mp h with ⟨l', hl, h2⟩
          rcases Option.map_eq_some'.mp h2 with ⟨r', hr, hx⟩
          rw [ih l l' hl, ih r r' hr]
          simp [hx]
      | Not e' =>
          rw [dF_eq_not] at h
          rw [dF_eq_not]
          rcases Option.map_eq_some'.mp h with ⟨y, hy, hx⟩
          rw [ih e' y hy]
          simp [hx]
      | And l r =>
          by_cases hro : notOrP r
          · by_cases hlo : notOrP l
            · rw [dF_eq_and_plain f l r hlo hro] at h
              rw [dF_eq_and_plain (f + 1) l r hlo hro]
              rcases Option.bind_eq_some.mp h with ⟨l', hl, h2⟩
              rcases Option.map_eq_some'.mp h2 with ⟨r', hr, hx⟩
              rw [ih l l' hl, ih r r' hr]
              simp [hx]
            · simp only [notOrP, not_forall, not_not] at hlo
              obtain ⟨il, ir, hEq⟩ := hlo
              subst hEq
              rw [dF_eq_and_orl f il ir r hro] at h
              rw [dF_eq_and_orl (f + 1) il ir r hro]
              exact ih _ _ h
          · simp only [notOrP, not_forall, not_not] at hro
            obtain ⟨il, ir, hEq⟩ := hro
            subst hEq
            rw [dF_eq_and_orr] at h
            rw [dF_eq_and_orr]
            exact ih _ _ h

theorem dF_mono_le {f g : Nat} (hfg : f ≤ g) {e x : Expression}
    (h : dF f e = some x) : dF g e = some x := by
  induction g with
  | zero =>
      have : f = 0 := Nat.le_zero.mp hfg
      subst this; exact h
  | succ g ih =>
      rcases Nat.lt_or_ge f (g + 1) with hlt | hge
      · exact dF_mono g e x (ih (Nat.lt_succ_iff.mp hlt))
      · have : f = g + 1 := le_antisymm hfg hge
        subst this; exact h

/-- Fuel `mes e` suffices for the distribution rewrite: it terminates with
the structural measure `mes`. -/
theorem dF_sufficient : ∀ f e, mes e ≤ f → ∃ x, dF f e = some x := by
  intro f
  induction f with
  | zero =>
      intro e h
      have := mes_two_le e
      omega
  | succ f ih =>
      intro e h
      cases e with
      | Variable v => exact ⟨_, rfl⟩
      | Constant b => exact ⟨_, rfl⟩
      | Or l r =>
          have hl2 := mes_two_le l
          have hr2 := mes_two_le r
          simp only [mes] at h
          obtain ⟨l', hl⟩ := ih l (by omega)
          obtain ⟨r', hr⟩ := ih r (by omega)
          refine ⟨.Or l' r', ?_⟩
          rw [dF_eq_or, hl, hr]
          rfl
      | Not e' =>
          simp only [mes] at h
          obtain ⟨y, hy⟩ := ih e' (by omega)
          refine ⟨.Not y, ?_⟩
          rw [dF_eq_not, hy]
          rfl
      | And l r =>
          by_cases hro : notOrP r
          · by_cases hlo : notOrP l
            · have hl2 := mes_two_le l
              have hr2 := mes_two_le r
              simp only [mes] at h
              have hml : mes l ≤ f := by nlinarith
              have hmr : mes r ≤ f := by nlinarith
              obtain ⟨l', hl⟩ := ih l hml
              obtain ⟨r', hr⟩ := ih r hmr
              refine ⟨.And l' r', ?_⟩
              rw [dF_eq_and_plain f l r hlo hro, hl, hr]
              rfl
            · simp only [notOrP, not_forall, not_not] at hlo
              obtain ⟨il, ir, hEq⟩ := hlo
              subst hEq
              have h2 := mes_two_le r
              simp only [mes] at h
              have : mes (.Or (.And il r) (.And ir r)) ≤ f := by
                simp only [mes]
                nlinarith
              obtain ⟨x, hx⟩ := ih _ this
              refine ⟨x, ?_⟩
              rw [dF_eq_and_orl f il ir r hro]
              exact hx
          · simp only [notOrP, not_forall, not_not] at hro
            obtain ⟨il, ir, hEq⟩ := hro
            subst hEq
            have h2 := mes_two_le l
            simp only [mes] at h
            have : mes (.Or (.And l il) (.And l ir)) ≤ f := by
              simp only [mes]
              nlinarith
            obtain ⟨x, hx⟩ := ih _ this
            refine ⟨x, ?_⟩
            rw [dF_eq_and_orr]
            exact hx

/-- A successful run of the fuel-indexed rewrite computes
`distribute_and_over_or`. -/
theorem distribute_eq_of_dF {f : Nat} {e x : Expression}
    (h : dF f e = some x) : e.distribute_and_over_or = x := by
  obtain ⟨y, hy⟩ := dF_sufficient (mes e) e (le_refl _)
  have h1 := dF_mono_le (Nat.le_max_left f (mes e)) h
  have h2 := dF_mono_le (Nat.le_max_right f (mes e)) hy
  rw [h1] at h2
  have hxy : x = y := Option.some.inj h2
  simp [Expression.distribute_and_over_or, hy, hxy]

/-- Every output of the De Morgan loop has `Not` only directly above
leaves. -/
theorem rdF_notsOnLeaves : ∀ f e x, rdF f e = some x →
    x.notsOnLeaves = true := by
  intro f
  induction f with
  | zero => intro e x h; simp [rdF] at h
  | succ f ih =>
      intro e x h
      cases e with
      | Variable v =>
          rw [rdF_eq_var, Option.some.injEq] at h
          subst h; rfl
      | Constant b =>
          rw [rdF_eq_const, Option.some.injEq] at h
          subst h; rfl
      | And l r =>
          rw [rdF_eq_and] at h
          rcases Option.bind_eq_some.mp h with ⟨l', hl, h2⟩
          rcases Option.map_eq_some'.mp h2 with ⟨r', hr, hx⟩
          subst hx
          simp [Expression.notsOnLeaves, ih l l' hl, ih r r' hr]
      | Or l r =>
          rw [rdF_eq_or] at h
          rcases Option.bind_eq_some.mp h with ⟨l', hl, h2⟩
          rcases Option.map_eq_some'.mp h2 with ⟨r', hr, hx⟩
          subst hx
          simp [Expression.notsOnLeaves, ih l l' hl, ih r r' hr]
      | Not e' =>
          cases e' with
          | Variable v =>
              rw [rdF_eq_nvar, Option.some.injEq] at h
              subst h; rfl
          | Constant b =>
              rw [rdF_eq_nconst, Option.some.injEq] at h
              subst h; rfl
          | And l r =>
              rw [rdF_eq_nand] at h
              rcases Option.bind_eq_some.mp h with ⟨l', hl, h2⟩
              rcases Option.bind_eq_some.mp h2 with ⟨r', hr, h3⟩
              rcases Option.bind_eq_some.mp h3 with ⟨x1, hx1, h4⟩
              rcases Option.map_eq_some'.mp h4 with ⟨y1, hy1, hx⟩
              subst hx
              simp [Expression.notsOnLeaves, ih _ _ hx1, ih _ _ hy1]
          | Or l r =>
              rw [rdF_eq_nor] at h
              rcases Option.bind_eq_some.mp h with ⟨l', hl, h2⟩
              rcases Option.bind_eq_some.mp h2 with ⟨r', hr, h3⟩
              rcases Option.bind_eq_some.mp h3 with ⟨x1, hx1, h4⟩
              rcases Option.map_eq_some'.mp h4 with ⟨y1, hy1, hx⟩
              subst hx
              simp [Expression.notsOnLeaves, ih _ _ hx1, ih _ _ hy1]
          | Not i =>
              rw [rdF_eq_nnot] at h
              exact ih i x h

/-- On constant-free input the De Morgan loop yields a constant-free strict
NNF: `Not` only directly above variables. -/
theorem rdF_strict_of_constantFree : ∀ f e x, rdF f e = some x →
    e.constantFree = true →
    x.notsOnVariables = true ∧ x.constantFree = true := by
  intro f
  induction f with
  | zero => intro e x h; simp [rdF] at h
  | succ f ih =>
      intro e x h hcf
      cases e with
      | Variable v =>
          rw [rdF_eq_var, Option.some.injEq] at h
          subst h; exact ⟨rfl, rfl⟩
      | Constant b => simp [Expression.constantFree] at hcf
      | And l r =>
          rw [rdF_eq_and] at h
          rcases Option.bind_eq_some.mp h with ⟨l', hl, h2⟩
          rcases Option.map_eq_some'.mp h2 with ⟨r', hr, hx⟩
          subst hx
          simp only [Expression.constantFree, Bool.and_eq_true] at hcf
          have a1 := ih l l' hl hcf.1
          have a2 := ih r r' hr hcf.2
          simp [Expression.notsOnVariables, Expression.constantFree,
            a1.1, a1.2, a2.1, a2.2]
      | Or l r =>
          rw [rdF_eq_or] at h
          rcases Option.bind_eq_some.mp h with ⟨l', hl, h2⟩
          rcases Option.map_eq_some'.mp h2 with ⟨r', hr, hx⟩
          subst hx
          simp only [Expression.constantFree, Bool.and_eq_true] at hcf
          have a1 := ih l l' hl hcf.1
          have a2 := ih r r' hr hcf.2
          simp [Expression.notsOnVariables, Expression.constantFree,
            a1.1, a1.2, a2.1, a2.2]
      | Not e' =>
          cases e' with
          | Variable v =>
              rw [rdF_eq_nvar, Option.some.injEq] at h
              subst h; exact ⟨rfl, rfl⟩
          | Constant b => simp [Expression.constantFree] at hcf
          | And l r =>
              rw [rdF_eq_nand] at h
              rcases Option.bind_eq_some.mp h with ⟨l', hl, h2⟩
              rcases Option.bind_eq_some.mp h2 with ⟨r', hr, h3⟩
              rcases Option.bind_eq_some.mp h3 with ⟨x1, hx1, h4⟩
              rcases Option.map_eq_some'.mp h4 with ⟨y1, hy1, hx⟩
              subst hx
              simp only [Expression.constantFree, Bool.and_eq_true] at hcf
              have a1 := ih l l' hl hcf.1
              have a2 := ih r r' hr hcf.2
              have b1 := ih (.Not l') x1 hx1 (by simpa [Expression.constantFree] using a1.2)
              have b2 := ih (.Not r') y1 hy1 (by simpa [Expression.constantFree] using a2.2)
              simp [Expression.notsOnVariables, Expression.constantFree,
                b1.1, b1.2, b2.1, b2.2]
          | Or l r =>
              rw [rdF_eq_nor] at h
              rcases Option.bind_eq_some.mp h with ⟨l', hl, h2⟩
              rcases Option.bind_eq_some.mp h2 with ⟨r', hr, h3⟩
              rcases Option.bind_eq_some.mp h3 with ⟨x1, hx1, h4⟩
              rcases Option.map_eq_some'.mp h4 with ⟨y1, hy1, hx⟩
              subst hx
              simp only [Expression.constantFree, Bool.and_eq_true] at hcf
              have a1 := ih l l' hl hcf.1
              have a2 := ih r r' hr hcf.2
              have b1 := ih (.Not l') x1 hx1 (by simpa [Expression.constantFree] using a1.2)
              have b2 := ih (.Not r') y1 hy1 (by simpa [Expression.constantFree] using a2.2)
              simp [Expression.notsOnVariables, Expression.constantFree,
                b1.1, b1.2, b2.1, b2.2]
          | Not i =>
              rw [rdF_eq_nnot] at h
              simp only [Expression.constantFree] at hcf
              exact ih i x h hcf

/-- The distribution rewrite preserves the strict NNF property. -/
theorem dF_notsOnVariables : ∀ f e x, dF f e = some x →
    e.notsOnVariables = true → x.notsOnVariables = true := by
  intro f
  induction f with
  | zero => intro e x h; simp [dF] at h
  | succ f ih =>
      intro e x h hnv
      cases e with
      | Variable v =>
          rw [dF_eq_var, Option.some.injEq] at h
          subst h; rfl
      | Constant b =>
          rw [dF_eq_const, Option.some.injEq] at h
          subst h; rfl
      | Or l r =>
          rw [dF_eq_or] at h
          rcases Option.bind_eq_some.mp h with ⟨l', hl, h2⟩
          rcases Option.map_eq_some'.mp h2 with ⟨r', hr, hx⟩
          subst hx
          simp only [Expression.notsOnVariables, Bool.and_eq_true] at hnv
          simp [Expression.notsOnVariables, ih l l' hl hnv.1, ih r r' hr hnv.2]
      | Not e' =>
          cases e' with
          | Variable v =>
              rw [show dF (f + 1) (.Not (.Variable v))
                    = (dF f (.Variable v)).map (fun x => .Not x) from rfl] at h
              cases f with
              | zero => simp [dF] at h
              | succ g =>
                  rw [dF_eq_var] at h
                  simp only [Option.map_some', Option.some.injEq] at h
                  subst h; rfl
          | Constant b => simp [Expression.notsOnVariables] at hnv
          | And a b => simp [Expression.notsOnVariables] at hnv
          | Or a b => simp [Expression.notsOnVariables] at hnv
          | Not a => simp [Expression.notsOnVariables] at hnv
      | And l r =>
          by_cases hro : notOrP r
          · by_cases hlo : notOrP l
            · rw [dF_eq_and_plain f l r hlo hro] at h
              rcases Option.bind_eq_some.mp h with ⟨l', hl, h2⟩
              rcases Option.map_eq_some'.mp h2 with ⟨r', hr, hx⟩
              subst hx
              simp only [Expression.notsOnVariables, Bool.and_eq_true] at hnv
              simp [Expression.notsOnVariables, ih l l' hl hnv.1, ih r r' hr hnv.2]
            · simp only [notOrP, not_forall, not_not] at hlo
              obtain ⟨il, ir, hEq⟩ := hlo
              subst hEq
              rw [dF_eq_and_orl f il ir r hro] at h
              simp only [Expression.notsOnVariables, Bool.and_eq_true] at hnv
              refine ih _ _ h ?_
              simp [Expression.notsOnVariables, hnv.1.1, hnv.1.2, hnv.2]
          · simp only [notOrP, not_forall, not_not] at hro
            obtain ⟨il, ir, hEq⟩ := hro
            subst hEq
            rw [dF_eq_and_orr] at h
            simp only [Expression.notsOnVariables, Bool.and_eq_true] at hnv
            refine ih _ _ h ?_
            simp [Expression.notsOnVariables, hnv.1, hnv.2.1, hnv.2.2]

/-- Folding constants with the empty assignment yields either a bare
constant or a constant-free expression. -/
theorem evaluate_empty_shape : ∀ e : Expression,
    (∃ b, e.evaluate ⟨[]⟩ = .Constant b) ∨
    (e.evaluate ⟨[]⟩).constantFree = true := by
  intro e
  induction e with
  | Variable v => right; simp [Expression.evaluate, getV, Expression.constantFree]
  | Constant b => left; exact ⟨b, rfl⟩
  | And l r ihl ihr =>
      rcases hl : l.evaluate ⟨[]⟩ with v | b | ⟨a1, a2⟩ | ⟨a1, a2⟩ | a1 <;>
        rcases hr : r.evaluate ⟨[]⟩ with w | c | ⟨b1, b2⟩ | ⟨b1, b2⟩ | b1 <;>
          rw [hl] at ihl <;> rw [hr] at ihr <;>
            simp only [Expression.evaluate, hl, hr] <;>
              (try cases b) <;> (try cases c) <;>
                simp_all [Expression.constantFree]
  | Or l r ihl ihr =>
      rcases hl : l.evaluate ⟨[]⟩ with v | b | ⟨a1, a2⟩ | ⟨a1, a2⟩ | a1 <;>
        rcases hr : r.evaluate ⟨[]⟩ with w | c | ⟨b1, b2⟩ | ⟨b1, b2⟩ | b1 <;>
          rw [hl] at ihl <;> rw [hr] at ihr <;>
            simp only [Expression.evaluate, hl, hr] <;>
              (try cases b) <;> (try cases c) <;>
                simp_all [Expression.constantFree]
  | Not e ih =>
      rcases he : e.evaluate ⟨[]⟩ with v | b | ⟨a1, a2⟩ | ⟨a1, a2⟩ | a1 <;>
        rw [he] at ih <;>
          simp only [Expression.evaluate, he] <;>
            simp_all [Expression.constantFree]

/-- C6 witness: the theorem applied to `v0 ∧ ¬v1` under the total
assignment `{v0 ↦ true, v1 ↦ false}`. -/
theorem evaluate_total_is_truth_table_witness :
    (Expression.And (.Variable 0) (.Not (.Variable 1))).evaluate
        ⟨[(0, true), (1, false)]⟩
      = .Constant ((Expression.And (.Variable 0) (.Not (.Variable 1))).sem
          fun v => (getV v [(0, true), (1, false)]).getD false) :=
  evaluate_total_is_truth_table (.And (.Variable 0) (.Not (.Variable 1)))
    ⟨[(0, true), (1, false)]⟩ (by decide)

/-! ### Association-list lemmas -/

theorem getV_some_mem {k : VariableId} {v : Bool}
    {l : List (VariableId × Bool)} (h : getV k l = some v) : (k, v) ∈ l := by
  induction l with
  | nil => simp [getV] at h
  | cons p t ih =>
      rcases p with ⟨k', v'⟩
      by_cases hk : k' = k
      · subst hk
        rw [getV, if_pos rfl] at h
        have := Option.some.inj h
        subst this
        exact List.mem_cons_self _ _
      · rw [getV, if_neg hk] at h
        exact List.mem_cons_of_mem _ (ih h)

theorem getV_eq_none {k : VariableId} {l : List (VariableId × Bool)} :
    getV k l = none ↔ ∀ p ∈ l, p.1 ≠ k := by
  induction l with
  | nil => simp [getV]
  | cons p t ih =>
      rcases p with ⟨k', v'⟩
      by_cases hk : k' = k
      · subst hk
        simp [getV]
      · simp [getV, hk, ih]

theorem getV_append (k : VariableId) (l1 l2 : List (VariableId × Bool)) :
    getV k (l1 ++ l2)
      = match getV k l1 with | some v => some v | none => getV k l2 := by
  induction l1 with
  | nil => simp [getV]
  | cons p t ih =>
      rcases p with ⟨k', v'⟩
      by_cases hk : k' = k
      · subst hk
        simp [getV]
      · simp [getV, hk, ih]

theorem getV_map_replace_self (k : VariableId) (v : Bool) :
    ∀ l : List (VariableId × Bool), (getV k l).isSome →
    getV k (l.map fun p => if p.1 = k then (k, v) else p) = some v := by
  intro l
  induction l with
  | nil => intro h; simp [getV] at h
  | cons p t ih =>
      intro h
      rcases p with ⟨a, b⟩
      rw [List.map_cons]
      by_cases hk : a = k
      · subst hk
        have hf : (if (a, b).1 = a then (a, v) else (a, b)) = (a, v) := by simp
        rw [hf, getV, if_pos rfl]
      · have hf : (if (a, b).1 = k then (k, v) else (a, b)) = (a, b) := by
          simp [hk]
        rw [hf, getV, if_neg hk]
        rw [getV, if_neg hk] at h
        exact ih h

theorem getV_map_replace_other {k k' : VariableId} (v : Bool)
    (h : k' ≠ k) :
    ∀ l : List (VariableId × Bool),
    getV k' (l.map fun p => if p.1 = k then (k, v) else p) = getV k' l := by
  intro l
  induction l with
  | nil => rfl
  | cons p t ih =>
      rcases p with ⟨a, b⟩
      rw [List.map_cons]
      by_cases hk : a = k
      · subst hk
        have hf : (if (a, b).1 = a then (a, v) else (a, b)) = (a, v) := by simp
        have hne : ¬ (a = k') := fun hh => h hh.symm
        rw [hf, getV, if_neg hne, getV, if_neg hne]
        exact ih
      · have hf : (if (a, b).1 = k then (k, v) else (a, b)) = (a, b) := by
          simp [hk]
        rw [hf, getV, getV]
        by_cases ha : a = k'
        · rw [if_pos ha, if_pos ha]
        · rw [if_neg ha, if_neg ha]
          exact ih

theorem getV_insertV_self (k : VariableId) (v : Bool)
    (l : List (VariableId × Bool)) : getV k (insertV k v l) = some v := by
  unfold insertV
  by_cases h : (getV k l).isSome
  · rw [if_pos h]
    exact getV_map_replace_self k v l h
  · rw [if_neg h]
    have hnone : getV k l = none := Option.not_isSome_iff_eq_none.mp h
    rw [getV_append, hnone]
    simp [getV]

theorem getV_insertV_other {k k' : VariableId} (v : Bool)
    (l : List (VariableId × Bool)) (h : k' ≠ k) :
    getV k' (insertV k v l) = getV k' l := by
  unfold insertV
  by_cases hs : (getV k l).isSome
  · rw [if_pos hs]
    exact getV_map_replace_other v h l
  · rw [if_neg hs]
    rw [getV_append]
    cases hg : getV k' l with
    | some w => rfl
    | none =>
        have hne : ¬ (k = k') := fun hh => h hh.symm
        simp [getV, hne]

theorem getV_eraseV (k j : VariableId) (l : List (VariableId × Bool)) :
    getV k (eraseV j l) = if k = j then none else getV k l := by
  induction l with
  | nil => simp [eraseV, getV]
  | cons p t ih =>
      rcases p with ⟨a, b⟩
      rw [show eraseV j ((a, b) :: t)
            = if a ≠ j then (a, b) :: eraseV j t else eraseV j t by
          simp only [eraseV, List.filter_cons]
          split <;> simp_all]
      by_cases haj : a = j
      · subst haj
        rw [if_neg (by simp)]
        rw [ih]
        by_cases hka : k = a
        · subst hka
          simp
        · have hak : ¬ (a = k) := fun hh => hka hh.symm
          simp [hka, getV, hak]
      · rw [if_pos (by simp [haj])]
        by_cases hka : a = k
        · subst hka
          have hkj : ¬ (a = j) := haj
          simp [getV, hkj]
        · simp only [getV, if_neg hka]
          exact ih

theorem insertV_fresh {k : VariableId} (v : Bool)
    {l : List (VariableId × Bool)} (h : getV k l = none) :
    insertV k v l = l ++ [(k, v)] := by
  unfold insertV
  rw [h]
  rfl

theorem eraseV_append_fresh {k : VariableId} (v : Bool)
    {l : List (VariableId × Bool)} (h : getV k l = none) :
    eraseV k (l ++ [(k, v)]) = l := by
  unfold eraseV
  rw [List.filter_append]
  have h1 : l.filter (fun p => decide (p.1 ≠ k)) = l := by
    apply List.filter_eq_self.mpr
    intro p hp
    simp [getV_eq_none.mp h p hp]
  have h2 : [(k, v)].filter (fun p : VariableId × Bool => decide (p.1 ≠ k)) = [] := by
    simp
  rw [h1, h2, List.append_nil]

/-! ### The clause-database invariant (C5) -/

theorem dstep_literals (L : Literal) (c : DpllClause) :
    (dstep L c).literals = c.literals := by
  unfold dstep
  split <;> rfl

theorem estep_literals (L : Literal) (a : Assignment) (c : DpllClause) :
    (estep L a c).literals = c.literals := by
  unfold estep
  split <;> rfl

/-- Unfolding `has_satisfied_literal = false` into its pointwise form. -/
theorem has_satisfied_literal_false_iff {c : DpllClause} {a : Assignment} :
    c.has_satisfied_literal a = false ↔
    ∀ l ∈ c.literals, getV l.var_id a.values ≠ some l.value := by
  rw [DpllClause.has_satisfied_literal, List.any_eq_false]
  constructor
  · intro h l hl hg
    exact h l hl (by rw [beq_iff_eq]; exact hg)
  · intro h l hl hb
    exact h l hl (beq_iff_eq.mp hb)

/-- If `dstep` leaves the clause enabled, nothing changed: the clause was
enabled and does not contain the literal. -/
theorem dstep_enabled {L : Literal} {c : DpllClause}
    (h : (dstep L c).is_disabled = false) :
    dstep L c = c ∧ c.is_disabled = false ∧ L ∉ c.literals := by
  unfold dstep at h ⊢
  split at h
  · simp at h
  · rename_i hcond
    rw [if_neg hcond]
    simp only [Bool.and_eq_true, Bool.not_eq_true', decide_eq_true_eq, not_and] at hcond
    exact ⟨rfl, h, fun hmem => (hcond h) hmem⟩

theorem foldl_disable_clauses (ps : List (VariableId × Bool)) :
    ∀ cnf : DpllCNF,
    (ps.foldl (fun c p => c.disable ⟨p.1, p.2⟩) cnf).clauses
      = cnf.clauses.map fun c => ps.foldl (fun c p => dstep ⟨p.1, p.2⟩ c) c := by
  induction ps with
  | nil => intro cnf; simp
  | cons p t ih =>
      intro cnf
      simp only [List.foldl_cons]
      rw [ih]
      simp [DpllCNF.disable, List.map_map]

theorem dstep_fold_literals (ps : List (VariableId × Bool)) :
    ∀ c : DpllClause,
    (ps.foldl (fun c p => dstep ⟨p.1, p.2⟩ c) c).literals = c.literals := by
  induction ps with
  | nil => intro c; rfl
  | cons p t ih =>
      intro c
      simp only [List.foldl_cons]
      rw [ih, dstep_literals]

theorem dstep_fold_enabled (ps : List (VariableId × Bool)) :
    ∀ c : DpllClause,
    (ps.foldl (fun c p => dstep ⟨p.1, p.2⟩ c) c).is_disabled = false →
    c.is_disabled = false ∧ ∀ p ∈ ps, (⟨p.1, p.2⟩ : Literal) ∉ c.literals := by
  induction ps with
  | nil => intro c h; exact ⟨h, by simp⟩
  | cons p t ih =>
      intro c h
      simp only [List.foldl_cons] at h
      have step := ih (dstep ⟨p.1, p.2⟩ c) h
      have hd := dstep_enabled step.1
      refine ⟨hd.2.1, ?_⟩
      intro q hq
      rcases List.mem_cons.mp hq with rfl | hq'
      · exact hd.2.2
      · have := step.2 q hq'
        rw [hd.1] at this
        exact this

/-- Establishment: the preprocessing pass of `solve_dpll` (disable every
clause containing a literal of the initial assignment, starting from the
all-enabled CNF) leaves no enabled clause satisfied. -/
theorem invE_preprocess (cls : List Clause) (a : Assignment) :
    InvE (a.values.foldl (fun c p => c.disable ⟨p.1, p.2⟩)
      (DpllCNF.fromCNF ⟨cls⟩)) a := by
  intro c hc hdis
  rw [foldl_disable_clauses] at hc
  rcases List.mem_map.mp hc with ⟨c0, hc0, rfl⟩
  have hfacts := dstep_fold_enabled a.values c0 hdis
  rw [has_satisfied_literal_false_iff]
  intro l hl hg
  rw [dstep_fold_literals] at hl
  have hmem := getV_some_mem hg
  exact hfacts.2 (l.var_id, l.value) hmem hl

/-- C5, `disable` half: if no enabled clause is satisfied, the same holds
after asserting a literal and disabling the clauses containing it. -/
theorem invE_disable (cnf : DpllCNF) (a : Assignment) (L : Literal)
    (h : InvE cnf a) :
    InvE (cnf.disable L) ⟨insertV L.var_id L.value a.values⟩ := by
  intro c' hc' hdis
  rcases List.mem_map.mp hc' with ⟨c, hc, rfl⟩
  have hd := dstep_enabled hdis
  rw [hd.1, has_satisfied_literal_false_iff]
  intro l hl hg
  by_cases hv : l.var_id = L.var_id
  · rw [hv, getV_insertV_self] at hg
    have hval : l.value = L.value := (Option.some.inj hg).symm
    have hlL : l = L := by
      cases l; cases L
      simp_all
    exact hd.2.2 (hlL ▸ hl)
  · rw [getV_insertV_other _ _ hv] at hg
    exact has_satisfied_literal_false_iff.mp (h c hc hd.2.1) l hl hg

/-- C5, `enable` half: if no enabled clause is satisfied, the same holds
after retracting a literal and re-enabling the eligible clauses containing
it. -/
theorem invE_enable (cnf : DpllCNF) (a : Assignment) (L : Literal)
    (h : InvE cnf a) :
    InvE (cnf.enable L ⟨eraseV L.var_id a.values⟩)
      ⟨eraseV L.var_id a.values⟩ := by
  intro c' hc' hdis
  rcases List.mem_map.mp hc' with ⟨c, hc, rfl⟩
  unfold estep at hdis ⊢
  split at hdis
  · rename_i hcond
    rw [if_pos hcond]
    simp only [Bool.and_eq_true, Bool.not_eq_true'] at hcond
    have hrw : DpllClause.has_satisfied_literal ⟨c.literals, false⟩
        ⟨eraseV L.var_id a.values⟩
        = c.has_satisfied_literal ⟨eraseV L.var_id a.values⟩ := rfl
    rw [hrw, hcond.2]
  · rename_i hcond
    rw [if_neg hcond]
    have hsat := has_satisfied_literal_false_iff.mp (h c hc hdis)
    rw [has_satisfied_literal_false_iff]
    intro l hl hg
    rw [getV_eraseV] at hg
    by_cases hv : l.var_id = L.var_id
    · rw [if_pos hv] at hg
      exact Option.noConfusion hg
    · rw [if_neg hv] at hg
      exact hsat l hl hg

/-- C5: the search-CNF invariant — no enabled clause contains a satisfied
literal — holds after `solve_dpll`'s preprocessing pass, and both mutators
preserve it in the form they are used by the engine (`disable` right after
the literal is asserted, `enable` right after it is retracted). -/
theorem enabled_clauses_unsatisfied_invariant :
    (∀ (cls : List Clause) (a : Assignment),
      InvE (a.values.foldl (fun c p => c.disable ⟨p.1, p.2⟩)
        (DpllCNF.fromCNF ⟨cls⟩)) a) ∧
    (∀ (cnf : DpllCNF) (a : Assignment) (L : Literal), InvE cnf a →
      InvE (cnf.disable L) ⟨insertV L.var_id L.value a.values⟩) ∧
    (∀ (cnf : DpllCNF) (a : Assignment) (L : Literal), InvE cnf a →
      InvE (cnf.enable L ⟨eraseV L.var_id a.values⟩)
        ⟨eraseV L.var_id a.values⟩) :=
  ⟨invE_preprocess, invE_disable, invE_enable⟩

/-- C5 witness: the `disable` half applied to a one-clause database. -/
theorem enabled_clauses_unsatisfied_invariant_witness :
    InvE (DpllCNF.mk [⟨[⟨0, true⟩], false⟩]) ⟨[]⟩ ∧
    InvE ((DpllCNF.mk [⟨[⟨0, true⟩], false⟩]).disable ⟨0, true⟩)
      ⟨insertV 0 true []⟩ :=
  ⟨by decide,
   enabled_clauses_unsatisfied_invariant.2.1 (DpllCNF.mk [⟨[⟨0, true⟩], false⟩])
     ⟨[]⟩ ⟨0, true⟩ (by decide)⟩

/-! ### The strengthened invariant and exact restoration (C4) -/

theorem has_satisfied_literal_true_iff {c : DpllClause} {a : Assignment} :
    c.has_satisfied_literal a = true ↔
    ∃ l ∈ c.literals, getV l.var_id a.values = some l.value := by
  rw [DpllClause.has_satisfied_literal, List.any_eq_true]
  constructor
  · rintro ⟨l, hl, hb⟩
    exact ⟨l, hl, beq_iff_eq.mp hb⟩
  · rintro ⟨l, hl, hg⟩
    exact ⟨l, hl, by rw [beq_iff_eq]; exact hg⟩

theorem has_sat_eq_of_lits {c1 c2 : DpllClause} (h : c1.literals = c2.literals)
    (a : Assignment) :
    c1.has_satisfied_literal a = c2.has_satisfied_literal a := by
  rw [DpllClause.has_satisfied_literal, DpllClause.has_satisfied_literal, h]

theorem map_eq_self_of {α : Type} (f : α → α) :
    ∀ l : List α, (∀ x ∈ l, f x = x) → l.map f = l := by
  intro l
  induction l with
  | nil => intro h; rfl
  | cons x t ih =>
      intro h
      rw [List.map_cons, h x (List.mem_cons_self _ _),
        ih fun y hy => h y (List.mem_cons_of_mem _ hy)]

theorem litsOf_disable (L : Literal) (cnf : DpllCNF) :
    litsOf (cnf.disable L) = litsOf cnf := by
  simp only [litsOf, DpllCNF.disable, List.map_map]
  apply List.map_congr_left
  intro c _
  exact dstep_literals L c

theorem litsOf_enable (L : Literal) (a : Assignment) (cnf : DpllCNF) :
    litsOf (cnf.enable L a) = litsOf cnf := by
  simp only [litsOf, DpllCNF.enable, List.map_map]
  apply List.map_congr_left
  intro c _
  exact estep_literals L a c

/-- A satisfied literal stays satisfied when a fresh variable is
inserted, and a literal satisfied after the insertion was either the
inserted one or already satisfied. -/
theorem getV_insert_fresh_cases {j : VariableId} {w : Bool} {k : VariableId}
    {a : List (VariableId × Bool)} (hfresh : getV j a = none) :
    getV k (insertV j w a) = if k = j then some w else getV k a := by
  by_cases hk : k = j
  · subst hk
    rw [if_pos rfl, getV_insertV_self]
  · rw [if_neg hk, getV_insertV_other _ _ hk]

/-- Asserting a fresh literal and disabling the clauses containing it
preserves the strengthened invariant. -/
theorem invIff_disable_insert {cnf : DpllCNF} {a : Assignment} {L : Literal}
    (h : InvIff cnf a) (hfresh : getV L.var_id a.values = none) :
    InvIff (cnf.disable L) ⟨insertV L.var_id L.value a.values⟩ := by
  intro c' hc'
  rcases List.mem_map.mp hc' with ⟨c, hc, rfl⟩
  have hlits := dstep_literals L c
  rw [has_sat_eq_of_lits hlits]
  constructor
  · intro hdis
    rw [has_satisfied_literal_true_iff]
    unfold dstep at hdis
    split at hdis
    · rename_i hcond
      simp only [Bool.and_eq_true, Bool.not_eq_true', decide_eq_true_eq] at hcond
      refine ⟨L, hcond.2, ?_⟩
      rw [getV_insert_fresh_cases hfresh, if_pos rfl]
    · have hsat := (h c hc).mp hdis
      rw [has_satisfied_literal_true_iff] at hsat
      obtain ⟨l, hl, hg⟩ := hsat
      refine ⟨l, hl, ?_⟩
      rw [getV_insert_fresh_cases hfresh]
      by_cases hv : l.var_id = L.var_id
      · rw [hv] at hg
        rw [hfresh] at hg
        exact Option.noConfusion hg
      · rw [if_neg hv]
        exact hg
  · intro hsat
    rw [has_satisfied_literal_true_iff] at hsat
    obtain ⟨l, hl, hg⟩ := hsat
    rw [getV_insert_fresh_cases hfresh] at hg
    by_cases hv : l.var_id = L.var_id
    · rw [if_pos hv] at hg
      have hval : l.value = L.value := (Option.some.inj hg).symm
      have hl' : L ∈ c.literals := by
        have hlL : l = L := by cases l; cases L; simp_all
        exact hlL ▸ hl
      unfold dstep
      cases hdis : c.is_disabled with
      | true =>
          rw [if_neg (by simp [hdis])]
          exact hdis
      | false =>
          rw [if_pos (by simp [hdis, hl'])]
    · rw [if_neg hv] at hg
      have hcs : c.has_satisfied_literal a = true :=
        has_satisfied_literal_true_iff.mpr ⟨l, hl, hg⟩
      have hdis := (h c hc).mpr hcs
      unfold dstep
      rw [if_neg (by simp [hdis])]
      exact hdis

/-- Exact single-step restoration: under the invariant, enabling right
after disabling the same fresh literal is the identity on the clause
database. -/
theorem disable_enable_restore {cnf : DpllCNF} {a : Assignment} {L : Literal}
    (h : InvIff cnf a) :
    DpllCNF.enable L a (cnf.disable L) = cnf := by
  have hcl : (DpllCNF.enable L a (cnf.disable L)).clauses = cnf.clauses := by
    simp only [DpllCNF.enable, DpllCNF.disable, List.map_map]
    apply map_eq_self_of
    intro c hc
    show estep L a (dstep L c) = c
    have hiff := h c hc
    by_cases hdis : c.is_disabled = true
    · have hstep : dstep L c = c := by
        unfold dstep
        rw [if_neg (by simp [hdis])]
      rw [hstep]
      unfold estep
      have hsat := hiff.mp hdis
      rw [if_neg (by simp [hsat])]
    · have henb : c.is_disabled = false := by simpa using hdis
      have hsat : c.has_satisfied_literal a = false := by
        cases hs : c.has_satisfied_literal a
        · rfl
        · exact absurd (hiff.mpr hs) hdis
      by_cases hmem : L ∈ c.literals
      · have hstep : dstep L c = ⟨c.literals, true⟩ := by
          unfold dstep
          rw [if_pos (by simp [henb, hmem])]
        rw [hstep]
        unfold estep
        have hsat' : DpllClause.has_satisfied_literal ⟨c.literals, true⟩ a = false :=
          hsat
        rw [if_pos (by simp [hmem, hsat'])]
        cases c
        simp_all
      · have hstep : dstep L c = c := by
          unfold dstep
          rw [if_neg (by simp [hmem])]
        rw [hstep]
        unfold estep
        rw [if_neg (by simp [henb])]
  calc DpllCNF.enable L a (cnf.disable L)
      = ⟨(DpllCNF.enable L a (cnf.disable L)).clauses⟩ := rfl
    _ = ⟨cnf.clauses⟩ := by rw [hcl]
    _ = cnf := rfl

/-- Retracting an assigned literal and re-enabling the eligible clauses
containing it preserves the strengthened invariant. -/
theorem invIff_erase_enable {cnf : DpllCNF} {a : Assignment} {L : Literal}
    (h : InvIff cnf a) (hact : getV L.var_id a.values = some L.value) :
    InvIff (cnf.enable L ⟨eraseV L.var_id a.values⟩)
      ⟨eraseV L.var_id a.values⟩ := by
  intro c' hc'
  rcases List.mem_map.mp hc' with ⟨c, hc, rfl⟩
  have hlits := estep_literals L ⟨eraseV L.var_id a.values⟩ c
  rw [has_sat_eq_of_lits hlits]
  constructor
  · intro hdis
    unfold estep at hdis
    split at hdis
    · simp at hdis
    · rename_i hcond
      have hcdis : c.is_disabled = true := hdis
      have hsat := (h c hc).mp hcdis
      rw [has_satisfied_literal_true_iff] at hsat
      obtain ⟨l, hl, hg⟩ := hsat
      by_cases hv : l.var_id = L.var_id
      · have hval : l.value = L.value := by
          rw [hv, hact] at hg
          exact (Option.some.inj hg).symm
        have hl' : L ∈ c.literals := by
          have hlL : l = L := by cases l; cases L; simp_all
          exact hlL ▸ hl
        -- the clause contains the retracted literal, so the enable test ran
        -- and must have found another satisfied literal
        cases hns : c.has_satisfied_literal ⟨eraseV L.var_id a.values⟩ with
        | true => rfl
        | false =>
            exfalso
            apply hcond
            simp [hcdis, hl', hns]
      · rw [has_satisfied_literal_true_iff]
        refine ⟨l, hl, ?_⟩
        rw [getV_eraseV, if_neg hv]
        exact hg
  · intro hsat
    rw [has_satisfied_literal_true_iff] at hsat
    obtain ⟨l, hl, hg⟩ := hsat
    rw [getV_eraseV] at hg
    by_cases hv : l.var_id = L.var_id
    · rw [if_pos hv] at hg
      exact Option.noConfusion hg
    · rw [if_neg hv] at hg
      have hcdis := (h c hc).mpr (has_satisfied_literal_true_iff.mpr ⟨l, hl, hg⟩)
      unfold estep
      split
      · rename_i hcond
        simp only [Bool.and_eq_true, Bool.not_eq_true'] at hcond
        have : c.has_satisfied_literal ⟨eraseV L.var_id a.values⟩ = true :=
          has_satisfied_literal_true_iff.mpr ⟨l, hl, by rw [getV_eraseV, if_neg hv]; exact hg⟩
        rw [hcond.2] at this
        exact Bool.noConfusion this
      · exact hcdis

/-- Under the strengthened invariant the flags are a function of the
assignment and the literal lists, so two invariant databases with the same
literals are equal. -/
theorem invIff_determines_flags :
    ∀ (l1 l2 : List DpllClause) (a : Assignment),
    (∀ c ∈ l1, (c.is_disabled = true ↔ c.has_satisfied_literal a = true)) →
    (∀ c ∈ l2, (c.is_disabled = true ↔ c.has_satisfied_literal a = true)) →
    l1.map (·.literals) = l2.map (·.literals) → l1 = l2 := by
  intro l1
  induction l1 with
  | nil =>
      intro l2 a h1 h2 hm
      cases l2 with
      | nil => rfl
      | cons y t2 => simp at hm
  | cons x t1 ih =>
      intro l2 a h1 h2 hm
      cases l2 with
      | nil => simp at hm
      | cons y t2 =>
          simp only [List.map_cons, List.cons.injEq] at hm
          have hx := h1 x (List.mem_cons_self _ _)
          have hy := h2 y (List.mem_cons_self _ _)
          have hsame := has_sat_eq_of_lits hm.1 a
          have hflag : x.is_disabled = y.is_disabled := by
            rw [hsame] at hx
            by_cases hs : y.has_satisfied_literal a = true
            · rw [hx.mpr hs, hy.mpr hs]
            · cases hxv : x.is_disabled
              · cases hyv : y.is_disabled
                · rfl
                · exact absurd (hy.mp hyv) hs
              · exact absurd (hx.mp hxv) hs
          have hxy : x = y := by
            cases x with
            | mk xl xd =>
                cases y with
                | mk yl yd =>
                    have e1 : xl = yl := hm.1
                    have e2 : xd = yd := hflag
                    rw [e1, e2]
          rw [hxy, ih t2 a (fun c hc => h1 c (List.mem_cons_of_mem _ hc))
            (fun c hc => h2 c (List.mem_cons_of_mem _ hc)) hm.2]

theorem findUnit_fresh {cnf : DpllCNF} {a : Assignment} {L : Literal}
    (h : findUnit cnf a = some L) : getV L.var_id a.values = none := by
  unfold findUnit at h
  rcases hf : (cnf.clauses.filter fun c => !c.is_disabled).find?
      (fun c => c.literal_count a == 1) with _ | c
  · rw [hf] at h
    exact Option.noConfusion h
  · rw [hf] at h
    have := List.find?_some h
    simpa using this

theorem freshTrail_nil (a : Assignment) : FreshTrail a [] :=
  ⟨by simp, List.Pairwise.nil⟩

theorem getV_append_none {k : VariableId} {l1 l2 : List (VariableId × Bool)} :
    getV k (l1 ++ l2) = none ↔ getV k l1 = none ∧ getV k l2 = none := by
  rw [getV_append]
  cases h : getV k l1 <;> simp

/-- Extending the assignment with the head literal keeps the tail of a
fresh trail fresh. -/
theorem freshTrail_strengthen {a : Assignment} {L : Literal} {Δ : List Literal}
    (h : FreshTrail a (L :: Δ)) :
    FreshTrail ⟨a.values ++ [(L.var_id, L.value)]⟩ Δ := by
  obtain ⟨h1, h2⟩ := h
  have hpc := List.pairwise_cons.mp h2
  refine ⟨?_, hpc.2⟩
  intro l hl
  rw [getV_append_none]
  refine ⟨h1 l (List.mem_cons_of_mem _ hl), ?_⟩
  rw [getV_eq_none]
  intro p hp
  simp only [List.mem_singleton] at hp
  subst hp
  simpa using hpc.1 l hl

/-- Conversely, a fresh head literal plus a trail fresh for the extended
assignment make a fresh combined trail. -/
theorem freshTrail_cons_of {a : Assignment} {L : Literal} {Δ : List Literal}
    (hL : getV L.var_id a.values = none)
    (h : FreshTrail ⟨a.values ++ [(L.var_id, L.value)]⟩ Δ) :
    FreshTrail a (L :: Δ) := by
  obtain ⟨h1, h2⟩ := h
  constructor
  · intro l hl
    rcases List.mem_cons.mp hl with rfl | hl'
    · exact hL
    · exact (getV_append_none.mp (h1 l hl')).1
  · rw [List.pairwise_cons]
    refine ⟨?_, h2⟩
    intro y hy
    have := (getV_append_none.mp (h1 y hy)).2
    rw [getV_eq_none] at this
    have := this (L.var_id, L.value) (by simp)
    simpa using this

theorem trailPairs_append (t1 t2 : List Literal) :
    trailPairs (t1 ++ t2) = trailPairs t1 ++ trailPairs t2 :=
  List.map_append _ _ _

/-- Combining two consecutive fresh trails. -/
theorem freshTrail_append :
    ∀ (Δ1 : List Literal) (a : Assignment) (Δ2 : List Literal),
    FreshTrail a Δ1 → FreshTrail ⟨a.values ++ trailPairs Δ1⟩ Δ2 →
    FreshTrail a (Δ1 ++ Δ2) := by
  intro Δ1
  induction Δ1 with
  | nil =>
      intro a Δ2 h1 h2
      have ha : (⟨a.values ++ trailPairs []⟩ : Assignment) = a := by
        show (⟨a.values ++ []⟩ : Assignment) = a
        rw [List.append_nil]
      rw [ha] at h2
      exact h2
  | cons L Δ1' ih =>
      intro a Δ2 h1 h2
      have hL := h1.1 L (List.mem_cons_self _ _)
      have h1' := freshTrail_strengthen h1
      have h2' : FreshTrail
          ⟨(⟨a.values ++ [(L.var_id, L.value)]⟩ : Assignment).values
            ++ trailPairs Δ1'⟩ Δ2 := by
        have : (⟨a.values ++ [(L.var_id, L.value)]⟩ : Assignment).values
            ++ trailPairs Δ1' = a.values ++ trailPairs (L :: Δ1') := by
          show (a.values ++ [(L.var_id, L.value)]) ++ trailPairs Δ1'
              = a.values ++ ((L.var_id, L.value) :: trailPairs Δ1')
          rw [List.append_assoc]
          rfl
        rw [this]
        exact h2
      have := ih _ _ h1' h2'
      exact freshTrail_cons_of hL this

/-- The aggregate effect of the unit-propagation loop: it appends a fresh
trail, extends the assignment by exactly that trail, preserves the
strengthened invariant and never touches the literal lists. -/
theorem removeUnitsGo_spec :
    ∀ (f : Nat) (cnf : DpllCNF) (a : Assignment) (tr : List Literal)
      (cnf1 : DpllCNF) (a1 : Assignment) (tr1 : List Literal),
    InvIff cnf a →
    removeUnitsGo f cnf a tr = (cnf1, a1, tr1) →
    ∃ Δ, tr1 = tr ++ Δ ∧ a1.values = a.values ++ trailPairs Δ ∧
      FreshTrail a Δ ∧ InvIff cnf1 a1 ∧ litsOf cnf1 = litsOf cnf := by
  intro f
  induction f with
  | zero =>
      intro cnf a tr cnf1 a1 tr1 hInv h
      simp only [removeUnitsGo, Prod.mk.injEq] at h
      obtain ⟨rfl, rfl, rfl⟩ := h
      exact ⟨[], by simp, by simp [trailPairs], freshTrail_nil a, hInv, rfl⟩
  | succ f ih =>
      intro cnf a tr cnf1 a1 tr1 hInv h
      simp only [removeUnitsGo] at h
      rcases hf : findUnit cnf a with _ | L
      · rw [hf] at h
        simp only [Prod.mk.injEq] at h
        obtain ⟨rfl, rfl, rfl⟩ := h
        exact ⟨[], by simp, by simp [trailPairs], freshTrail_nil a, hInv, rfl⟩
      · rw [hf] at h
        have hfresh := findUnit_fresh hf
        have hInv' := invIff_disable_insert hInv hfresh
        obtain ⟨Δ, htr, ha, hft, hinv1, hlits⟩ := ih _ _ _ _ _ _ hInv' h
        refine ⟨L :: Δ, ?_, ?_, ?_, hinv1, ?_⟩
        · rw [htr, List.append_assoc]
          rfl
        · rw [ha, insertV_fresh L.value hfresh, List.append_assoc]
          rfl
        · rw [insertV_fresh L.value hfresh] at hft
          exact freshTrail_cons_of hfresh hft
        · rw [hlits, litsOf_disable]

/-- Splitting two literals on the same variable. -/
theorem literal_same_var {x l : Literal} (h : x.var_id = l.var_id) :
    x = l ∨ x = l.not := by
  cases x with
  | mk xv xb =>
      cases l with
      | mk lv lb =>
          simp only at h
          subst h
          cases xb <;> cases lb <;> simp [Literal.not]

/-- The pure-literal scan only collects unassigned literals with pairwise
distinct variables. -/
theorem pureScan_fold_inv (a : Assignment) :
    ∀ (lits : List Literal) (p : List Literal × List Literal),
    (∀ l ∈ p.1, getV l.var_id a.values = none) →
    p.1.Pairwise (fun x y => x.var_id ≠ y.var_id) →
    (∀ l ∈ lits, getV l.var_id a.values = none) →
    (∀ l ∈ (lits.foldl pureScanStep p).1, getV l.var_id a.values = none) ∧
    (lits.foldl pureScanStep p).1.Pairwise fun x y => x.var_id ≠ y.var_id := by
  intro lits
  induction lits with
  | nil => intro p h1 h2 h3; exact ⟨h1, h2⟩
  | cons l t ih =>
      intro p h1 h2 h3
      simp only [List.foldl_cons]
      apply ih
      · intro x hx
        unfold pureScanStep at hx
        split_ifs at hx with hc1 hc2
        · exact h1 x (List.mem_of_mem_filter hx)
        · exact h1 x hx
        · unfold listInsert at hx
          split_ifs at hx with hmem
          · exact h1 x hx
          · rcases List.mem_append.mp hx with hx' | hx'
            · exact h1 x hx'
            · simp at hx'
              subst hx'
              exact h3 _ (List.mem_cons_self _ _)
      · unfold pureScanStep
        split_ifs with hc1 hc2
        · exact h2.filter _
        · exact h2
        · unfold listInsert
          split_ifs with hmem
          · exact h2
          · rw [List.pairwise_append]
            refine ⟨h2, List.pairwise_singleton _ _, ?_⟩
            intro x hx y hy
            simp at hy
            subst hy
            intro hveq
            rcases literal_same_var hveq with rfl | hnot
            · exact hmem hx
            · rw [hnot] at hx
              exact hc1 hx
      · intro x hx
        exact h3 x (List.mem_cons_of_mem _ hx)

/-- The aggregate effect of assigning and disabling a list of fresh,
variable-distinct (pure) literals. -/
theorem applyPures_spec :
    ∀ (ps : List Literal) (cnf : DpllCNF) (a : Assignment) (tr : List Literal)
      (cnf2 : DpllCNF) (a2 : Assignment) (tr2 : List Literal),
    InvIff cnf a →
    (∀ l ∈ ps, getV l.var_id a.values = none) →
    ps.Pairwise (fun x y => x.var_id ≠ y.var_id) →
    ps.foldl (fun st pl =>
        (st.1.disable pl, ⟨insertV pl.var_id pl.value st.2.1.values⟩,
          st.2.2 ++ [pl])) (cnf, a, tr) = (cnf2, a2, tr2) →
    tr2 = tr ++ ps ∧ a2.values = a.values ++ trailPairs ps ∧
      InvIff cnf2 a2 ∧ litsOf cnf2 = litsOf cnf := by
  intro ps
  induction ps with
  | nil =>
      intro cnf a tr cnf2 a2 tr2 hInv hfr hpw h
      simp only [List.foldl_nil, Prod.mk.injEq] at h
      obtain ⟨rfl, rfl, rfl⟩ := h
      exact ⟨by simp, by simp [trailPairs], hInv, rfl⟩
  | cons L t ih =>
      intro cnf a tr cnf2 a2 tr2 hInv hfr hpw h
      simp only [List.foldl_cons] at h
      have hLfresh := hfr L (List.mem_cons_self _ _)
      have hInv' := invIff_disable_insert hInv hLfresh
      have hpc := List.pairwise_cons.mp hpw
      have hfr' : ∀ l ∈ t,
          getV l.var_id (insertV L.var_id L.value a.values) = none := by
        intro l hl
        have hne : l.var_id ≠ L.var_id := fun hh => (hpc.1 l hl) hh.symm
        rw [getV_insertV_other _ _ hne]
        exact hfr l (List.mem_cons_of_mem _ hl)
      obtain ⟨htr, ha, hinv, hlits⟩ := ih _ _ _ _ _ _ hInv' hfr' hpc.2 h
      refine ⟨?_, ?_, hinv, by rw [hlits, litsOf_disable]⟩
      · rw [htr, List.append_assoc]
        rfl
      · rw [ha, insertV_fresh L.value hLfresh, List.append_assoc]
        rfl

theorem enabledUnassignedLits_fresh (cnf : DpllCNF) (a : Assignment) :
    ∀ l ∈ enabledUnassignedLits cnf a, getV l.var_id a.values = none := by
  intro l hl
  unfold enabledUnassignedLits at hl
  rcases List.mem_flatten.mp hl with ⟨s, hs, hls⟩
  rcases List.mem_map.mp hs with ⟨c, hc, rfl⟩
  have := (List.mem_filter.mp hls).2
  simpa using this

/-- The aggregate effect of `eliminate_pure_literals`, in the same shape as
`removeUnitsGo_spec`. -/
theorem pureElim_spec (cnf : DpllCNF) (a : Assignment) (tr : List Literal)
    (cnf2 : DpllCNF) (a2 : Assignment) (tr2 : List Literal)
    (hInv : InvIff cnf a)
    (h : eliminate_pure_literals cnf a tr = (cnf2, a2, tr2)) :
    ∃ Δ, tr2 = tr ++ Δ ∧ a2.values = a.values ++ trailPairs Δ ∧
      FreshTrail a Δ ∧ InvIff cnf2 a2 ∧ litsOf cnf2 = litsOf cnf := by
  simp only [eliminate_pure_literals] at h
  have hscan := pureScan_fold_inv a (enabledUnassignedLits cnf a) ([], [])
    (by simp) List.Pairwise.nil (enabledUnassignedLits_fresh cnf a)
  obtain ⟨htr, ha, hinv, hlits⟩ :=
    applyPures_spec _ cnf a tr cnf2 a2 tr2 hInv hscan.1 hscan.2 h
  exact ⟨_, htr, ha, ⟨hscan.1, hscan.2⟩, hinv, hlits⟩

/-- Undoing a fresh trail in FIFO order restores the assignment exactly and
keeps the strengthened invariant, so the flags are restored as well. -/
theorem undoTrail_spec :
    ∀ (Δ : List Literal) (cnf2 : DpllCNF) (a : Assignment),
    InvIff cnf2 ⟨a.values ++ trailPairs Δ⟩ →
    FreshTrail a Δ →
    (undoTrail cnf2 ⟨a.values ++ trailPairs Δ⟩ Δ).2 = a ∧
    InvIff (undoTrail cnf2 ⟨a.values ++ trailPairs Δ⟩ Δ).1 a ∧
    litsOf (undoTrail cnf2 ⟨a.values ++ trailPairs Δ⟩ Δ).1 = litsOf cnf2 := by
  intro Δ
  induction Δ with
  | nil =>
      intro cnf2 a hInv hft
      have ha : (⟨a.values ++ trailPairs []⟩ : Assignment) = a := by
        show (⟨a.values ++ []⟩ : Assignment) = a
        rw [List.append_nil]
      rw [ha] at hInv ⊢
      exact ⟨rfl, hInv, rfl⟩
  | cons L Δ' ih =>
      intro cnf2 a hInv hft
      have hfreshL : getV L.var_id a.values = none :=
        hft.1 L (List.mem_cons_self _ _)
      have hpc := List.pairwise_cons.mp hft.2
      have herase : eraseV L.var_id (a.values ++ trailPairs (L :: Δ'))
          = a.values ++ trailPairs Δ' := by
        show eraseV L.var_id
            (a.values ++ ((L.var_id, L.value) :: trailPairs Δ')) = _
        unfold eraseV
        rw [List.filter_append]
        congr 1
        · apply List.filter_eq_self.mpr
          intro p hp
          simp [getV_eq_none.mp hfreshL p hp]
        · rw [List.filter_cons]
          rw [if_neg (by simp)]
          apply List.filter_eq_self.mpr
          intro p hp
          rcases List.mem_map.mp hp with ⟨l, hl, rfl⟩
          simpa using fun hh => (hpc.1 l hl) hh.symm
      have hactive : getV L.var_id (a.values ++ trailPairs (L :: Δ'))
          = some L.value := by
        rw [getV_append, hfreshL]
        simp [trailPairs, getV]
      have hstep : undoTrail cnf2 ⟨a.values ++ trailPairs (L :: Δ')⟩ (L :: Δ')
          = undoTrail (DpllCNF.enable L ⟨a.values ++ trailPairs Δ'⟩ cnf2)
              ⟨a.values ++ trailPairs Δ'⟩ Δ' := by
        simp only [undoTrail, List.foldl_cons]
        rw [herase]
      have hInv' : InvIff
          (DpllCNF.enable L ⟨a.values ++ trailPairs Δ'⟩ cnf2)
          ⟨a.values ++ trailPairs Δ'⟩ := by
        have hx := invIff_erase_enable hInv hactive
        rw [show eraseV L.var_id
              (⟨a.values ++ trailPairs (L :: Δ')⟩ : Assignment).values
            = a.values ++ trailPairs Δ' from herase] at hx
        exact hx
      have hft' : FreshTrail a Δ' :=
        ⟨fun l hl => hft.1 l (List.mem_cons_of_mem _ hl), hpc.2⟩
      obtain ⟨h1, h2, h3⟩ := ih _ a hInv' hft'
      rw [hstep]
      exact ⟨h1, h2, by rw [h3, litsOf_enable]⟩

theorem chooseScan_fresh :
    ∀ (sf maxId : Nat) (rng : Nat → Nat) (ridx : Nat) (a : Assignment)
      (v r1 : Nat),
    chooseScan sf maxId rng ridx a = some (v, r1) →
    getV v a.values = none := by
  intro sf
  induction sf with
  | zero => intro maxId rng ridx a v r1 h; simp [chooseScan] at h
  | succ sf ih =>
      intro maxId rng ridx a v r1 h
      simp only [chooseScan] at h
      split_ifs at h with hc
      · simp only [Option.some.injEq, Prod.mk.injEq] at h
        obtain ⟨rfl, rfl⟩ := h
        exact Option.isNone_iff_eq_none.mp hc
      · exact ih _ _ _ _ _ _ h

theorem choose_variable_fresh {sf maxId : Nat} {a : Assignment}
    {rng : Nat → Nat} {ridx v r1 : Nat}
    (h : choose_variable sf maxId a rng ridx = some (v, r1)) :
    getV v a.values = none := by
  unfold choose_variable at h
  split_ifs at h with hc
  · exact chooseScan_fresh _ _ _ _ _ _ _ h
  · rcases hav : (List.range (maxId + 1)).filter
        (fun v => (getV v a.values).isNone) with _ | ⟨x, xs⟩
    · rw [hav] at h
      exact Option.noConfusion h
    · rw [hav] at h
      simp only [Option.some.injEq, Prod.mk.injEq] at h
      obtain ⟨rfl, rfl⟩ := h
      have hlen : 0 < (x :: xs).length := by simp
      have hidx : rng ridx % (x :: xs).length < (x :: xs).length :=
        Nat.mod_lt _ hlen
      have hmem : (x :: xs).getD (rng ridx % (x :: xs).length) 0 ∈ x :: xs := by
        rw [List.getD_eq_getElem?_getD, List.getElem?_eq_getElem hidx]
        exact List.getElem_mem _
      have hmem2 : (x :: xs).getD (rng ridx % (x :: xs).length) 0
          ∈ (List.range (maxId + 1)).filter
            (fun v => (getV v a.values).isNone) := by
        rw [hav]
        exact hmem
      have := (List.mem_filter.mp hmem2).2
      simpa using this

/-- C4: a call of the recursive DPLL step that returns `Unsat` restores the
clause database (every disabled flag) and the assignment to their values at
entry, for every state satisfying the search invariant — which holds at
every actual call site (established by `solve_dpll`'s preprocessing and
preserved by every step). -/
theorem solve_dpll_recursive_unsat_restores :
    ∀ (fuel : Nat) (cnf : DpllCNF) (a : Assignment) (maxId : VariableId)
      (rng : Nat → Nat) (ridx : Nat) (cnf' : DpllCNF) (a' : Assignment)
      (ridx' : Nat),
    InvIff cnf a →
    solveRecF fuel cnf a maxId rng ridx = some (.Unsat, cnf', a', ridx') →
    cnf' = cnf ∧ a' = a := by
  intro fuel
  induction fuel with
  | zero =>
      intro cnf a maxId rng ridx cnf' a' ridx' hInv h
      simp [solveRecF] at h
  | succ f ih =>
      intro cnf a maxId rng ridx cnf' a' ridx' hInv h
      simp only [solveRecF] at h
      rcases h1 : remove_unit_clauses cnf a [] with ⟨cnf1, a1, tr1⟩
      rw [h1] at h
      dsimp only at h
      rcases h2 : eliminate_pure_literals cnf1 a1 tr1 with ⟨cnf2, a2, tr⟩
      rw [h2] at h
      dsimp only at h
      obtain ⟨Δ1, htr1, ha1, hft1, hinv1, hlits1⟩ :=
        removeUnitsGo_spec _ cnf a [] cnf1 a1 tr1 hInv h1
      rw [List.nil_append] at htr1
      obtain ⟨Δ2, htr2, ha2, hft2, hinv2, hlits2⟩ :=
        pureElim_spec cnf1 a1 tr1 cnf2 a2 tr hinv1 h2
      have ha1' : a1 = ⟨a.values ++ trailPairs Δ1⟩ := congrArg Assignment.mk ha1
      rw [ha1'] at hft2
      have hfta := freshTrail_append Δ1 a Δ2 hft1 hft2
      have hAll : a2.values = a.values ++ trailPairs (Δ1 ++ Δ2) := by
        rw [ha2, ha1, trailPairs_append, List.append_assoc]
      have htrAll : tr = Δ1 ++ Δ2 := by rw [htr2, htr1]
      have hlitsAll : litsOf cnf2 = litsOf cnf := by rw [hlits2, hlits1]
      by_cases hno : cnf2.has_no_clauses = true
      · rw [if_pos hno] at h
        simp at h
      · rw [if_neg hno] at h
        by_cases hemp : cnf2.has_empty_clause a2 = true
        · rw [if_pos hemp] at h
          rcases hu : undoTrail cnf2 a2 tr with ⟨cnfR, aR⟩
          rw [hu] at h
          dsimp only at h
          simp only [Option.some.injEq, Prod.mk.injEq, true_and] at h
          obtain ⟨hc, ha', _⟩ := h
          have ha2' : a2 = ⟨a.values ++ trailPairs (Δ1 ++ Δ2)⟩ :=
            congrArg Assignment.mk hAll
          rw [ha2', htrAll] at hu
          have hInv2' : InvIff cnf2 ⟨a.values ++ trailPairs (Δ1 ++ Δ2)⟩ :=
            ha2' ▸ hinv2
          obtain ⟨hr1, hr2, hr3⟩ :=
            undoTrail_spec (Δ1 ++ Δ2) cnf2 a hInv2' hfta
          rw [hu] at hr1 hr2 hr3
          dsimp only at hr1 hr2 hr3
          have hl : litsOf cnfR = litsOf cnf := by rw [hr3, hlitsAll]
          have hflagseq :=
            invIff_determines_flags cnfR.clauses cnf.clauses a hr2 hInv hl
          have hcnfR : cnfR = cnf := by
            calc cnfR = ⟨cnfR.clauses⟩ := rfl
              _ = ⟨cnf.clauses⟩ := by rw [hflagseq]
              _ = cnf := rfl
          constructor
          · rw [← hc]
            exact hcnfR
          · rw [← ha']
            exact hr1
        · rw [if_neg hemp] at h
          rcases hcv : choose_variable (f + 1) maxId a2 rng ridx
            with _ | ⟨v, ridx1⟩
          · rw [hcv] at h
            exact Option.noConfusion h
          · rw [hcv] at h
            dsimp only at h
            have hvfresh := choose_variable_fresh hcv
            have hInv3 : InvIff (cnf2.disable ⟨v, true⟩)
                ⟨insertV v true a2.values⟩ :=
              invIff_disable_insert hinv2 hvfresh
            rcases hr1c : solveRecF f (cnf2.disable ⟨v, true⟩)
                ⟨insertV v true a2.values⟩ maxId rng ridx1
              with _ | ⟨res1, c1', a1', r1'⟩
            · rw [hr1c] at h
              exact Option.noConfusion h
            · rw [hr1c] at h
              cases res1 with
              | Sat =>
                  dsimp only at h
                  simp at h
              | Unsat =>
                  dsimp only at h
                  obtain ⟨hc1, ha1''⟩ := ih _ _ _ _ _ _ _ _ hInv3 hr1c
                  subst hc1
                  subst ha1''
                  have herase1 : eraseV v (insertV v true a2.values)
                      = a2.values := by
                    rw [insertV_fresh true hvfresh]
                    exact eraseV_append_fresh true hvfresh
                  rw [herase1] at h
                  have hrest1 : DpllCNF.enable ⟨v, true⟩ ⟨a2.values⟩
                      (cnf2.disable ⟨v, true⟩) = cnf2 :=
                    disable_enable_restore hinv2
                  rw [hrest1] at h
                  have hInv5 : InvIff (cnf2.disable ⟨v, false⟩)
                      ⟨insertV v false a2.values⟩ :=
                    invIff_disable_insert hinv2 hvfresh
                  rcases hr2c : solveRecF f (cnf2.disable ⟨v, false⟩)
                      ⟨insertV v false a2.values⟩ maxId rng r1'
                    with _ | ⟨res2, c2', a2', r2'⟩
                  · rw [hr2c] at h
                    exact Option.noConfusion h
                  · rw [hr2c] at h
                    cases res2 with
                    | Sat =>
                        dsimp only at h
                        simp at h
                    | Unsat =>
                        dsimp only at h
                        obtain ⟨hc2, ha2''⟩ := ih _ _ _ _ _ _ _ _ hInv5 hr2c
                        subst hc2
                        subst ha2''
                        have herase2 : eraseV v (insertV v false a2.values)
                            = a2.values := by
                          rw [insertV_fresh false hvfresh]
                          exact eraseV_append_fresh false hvfresh
                        rw [herase2] at h
                        have hrest2 : DpllCNF.enable ⟨v, false⟩ ⟨a2.values⟩
                            (cnf2.disable ⟨v, false⟩) = cnf2 :=
                          disable_enable_restore hinv2
                        rw [hrest2] at h
                        rcases hu : undoTrail cnf2 ⟨a2.values⟩ tr
                          with ⟨cnfR, aR⟩
                        rw [hu] at h
                        dsimp only at h
                        simp only [Option.some.injEq, Prod.mk.injEq,
                          true_and] at h
                        obtain ⟨hc, ha', _⟩ := h
                        have ha2' : (⟨a2.values⟩ : Assignment)
                            = ⟨a.values ++ trailPairs (Δ1 ++ Δ2)⟩ :=
                          congrArg Assignment.mk hAll
                        rw [ha2', htrAll] at hu
                        have hInv2' : InvIff cnf2
                            ⟨a.values ++ trailPairs (Δ1 ++ Δ2)⟩ := by
                          have : a2 = ⟨a.values ++ trailPairs (Δ1 ++ Δ2)⟩ :=
                            congrArg Assignment.mk hAll
                          exact this ▸ hinv2
                        obtain ⟨hr1, hr2, hr3⟩ :=
                          undoTrail_spec (Δ1 ++ Δ2) cnf2 a hInv2' hfta
                        rw [hu] at hr1 hr2 hr3
                        dsimp only at hr1 hr2 hr3
                        have hl : litsOf cnfR = litsOf cnf := by
                          rw [hr3, hlitsAll]
                        have hflagseq := invIff_determines_flags
                          cnfR.clauses cnf.clauses a hr2 hInv hl
                        have hcnfR : cnfR = cnf := by
                          calc cnfR = ⟨cnfR.clauses⟩ := rfl
                            _ = ⟨cnf.clauses⟩ := by rw [hflagseq]
                            _ = cnf := rfl
                        constructor
                        · rw [← hc]
                          exact hcnfR
                        · rw [← ha']
                          exact hr1

/-- C4 witness: the theorem applied to the two-clause database
`{v0} ∧ {¬v0}` with the empty assignment, on which the recursive step
returns `Unsat` with the state restored. -/
theorem solve_dpll_recursive_unsat_restores_witness :
    InvIff (DpllCNF.mk [⟨[⟨0, true⟩], false⟩, ⟨[⟨0, false⟩], false⟩]) ⟨[]⟩ ∧
    ((DpllCNF.mk [⟨[⟨0, true⟩], false⟩, ⟨[⟨0, false⟩], false⟩]
        : DpllCNF) = DpllCNF.mk [⟨[⟨0, true⟩], false⟩, ⟨[⟨0, false⟩], false⟩] ∧
      (⟨[]⟩ : Assignment) = ⟨[]⟩) :=
  ⟨by decide,
   solve_dpll_recursive_unsat_restores 3
     (DpllCNF.mk [⟨[⟨0, true⟩], false⟩, ⟨[⟨0, false⟩], false⟩]) ⟨[]⟩ 0
     (fun _ => 0) 0
     (DpllCNF.mk [⟨[⟨0, true⟩], false⟩, ⟨[⟨0, false⟩], false⟩]) ⟨[]⟩ 0
     (by decide) (by decide)⟩

/-- C7 (amended): in the output of `to_dnf_expr` every `Not` sits directly
above a bare variable, and in the output of `to_cnf_expr` every `Not` sits
directly above a variable or a constant (`Not (Constant _)` arises when the
negated input constant-folds). -/
theorem normal_forms_push_not_to_leaves (e : Expression) :
    (e.to_dnf_expr).notsOnVariables = true ∧
    (e.to_cnf_expr).notsOnLeaves = true := by
  constructor
  · rcases evaluate_empty_shape e with ⟨b, hb⟩ | hcf
    · have h1 : (e.evaluate ⟨[]⟩).recursive_demorgan = .Constant b := by
        rw [hb]
        exact recursive_demorgan_eq_of_rdF
          (show rdF 1 (.Constant b) = some (.Constant b) from rfl)
      have h2 : e.to_dnf_expr = .Constant b := by
        unfold Expression.to_dnf_expr
        rw [h1]
        exact distribute_eq_of_dF
          (show dF 1 (.Constant b) = some (.Constant b) from rfl)
      rw [h2]; rfl
    · obtain ⟨x, hx⟩ := rdF_sufficient (nu (e.evaluate ⟨[]⟩)) _ (le_refl _)
      have hrd := recursive_demorgan_eq_of_rdF hx
      have hstrict := rdF_strict_of_constantFree _ _ _ hx hcf
      obtain ⟨y, hy⟩ := dF_sufficient (mes x) x (le_refl _)
      have hd := distribute_eq_of_dF hy
      have hnv := dF_notsOnVariables _ _ _ hy hstrict.1
      unfold Expression.to_dnf_expr
      rw [hrd, hd]
      exact hnv
  · obtain ⟨z, hz⟩ :=
      rdF_sufficient (nu (.Not ((Expression.Not e).to_dnf_expr))) _ (le_refl _)
    have hrd := recursive_demorgan_eq_of_rdF hz
    unfold Expression.to_cnf_expr
    rw [hrd]
    exact rdF_notsOnLeaves _ _ _ hz

/-- C8: the whole normal-form pipeline terminates, with fuel given by the
decreasing structural measures: `nu e` steps suffice for the De Morgan
pushdown, `mes e` steps suffice for the AND-over-OR distribution, and the
fuelled pipelines `toDnfF` / `toCnfF` succeed and compute `to_dnf_expr` /
`to_cnf_expr`. -/
theorem normal_form_pipeline_terminates (e : Expression) :
    rdF (nu e) e = some e.recursive_demorgan ∧
    dF (mes e) e = some e.distribute_and_over_or ∧
    toDnfF e = some e.to_dnf_expr ∧
    toCnfF e = some e.to_cnf_expr := by
  have hrd : ∀ g : Expression, rdF (nu g) g = some g.recursive_demorgan := by
    intro g
    obtain ⟨x, hx⟩ := rdF_sufficient (nu g) g (le_refl _)
    rw [hx, recursive_demorgan_eq_of_rdF hx]
  have hdd : ∀ g : Expression, dF (mes g) g = some g.distribute_and_over_or := by
    intro g
    obtain ⟨x, hx⟩ := dF_sufficient (mes g) g (le_refl _)
    rw [hx, distribute_eq_of_dF hx]
  have hdnf : ∀ g : Expression, toDnfF g = some g.to_dnf_expr := by
    intro g
    unfold toDnfF
    rw [hrd (g.evaluate ⟨[]⟩)]
    simp only [Option.some_bind]
    rw [hdd ((g.evaluate ⟨[]⟩).recursive_demorgan)]
    rfl
  refine ⟨hrd e, hdd e, hdnf e, ?_⟩
  unfold toCnfF
  rw [hdnf (.Not e)]
  simp only [Option.some_bind]
  rw [hrd (.Not ((Expression.Not e).to_dnf_expr))]
  rfl

end SatSolver
